import Mathlib

/-!
Verification of the timing and judgement core of the `iris` rhythm-game
runtime (`src/chart.rs`, `src/judge.rs`).

Embedding conventions:
* `f32`/`f64` values are modelled as exact rationals (`ℚ`); every comparison
  and arithmetic operation in the source is mirrored on `ℚ`.
* `Vec<Timed<T>>` is modelled as `List (Timed T)`; sortedness is the
  `List.Pairwise` hypothesis the source documents for chart data.
* `superslice::Ext::lower_bound_by`/`equal_range_by` are specified (per their
  documentation, for a partitioned slice) as "first index whose comparator
  result is not `Less`" resp. the pair of such binary-search bounds; the first
  index at which a boolean predicate fails is `(List.takeWhile p l).length`.
* ECS entities are modelled by natural-number ids handed out by a counter;
  `BTreeMap<LaserId, Entity>` is an association list with unique keys;
  `entities.delete` removes the object from the live registry.
* A Rust `panic!`/`assert!`/`unimplemented!` abort is modelled by `Option`:
  `none` is the aborted session.
-/

namespace Iris

/-- `Timed<T>`: a value paired with a chart time in seconds (`chart.rs`). -/
structure Timed (T : Type) where
  time : ℚ
  inner : T
deriving Repr, DecidableEq

/-- The comparator closure passed to `equal_range_by` in
`equal_range_by_time` (`chart.rs` lines 95-107):
`time < lo ⇒ Less`, `time ≥ hi ⇒ Greater`, otherwise `Equal`. -/
def rangeCmp {T : Type} (lo hi : ℚ) (x : Timed T) : Ordering :=
  if x.time < lo then Ordering.lt
  else if hi ≤ x.time then Ordering.gt
  else Ordering.eq

/-- `equal_range_by_time` (`chart.rs`): the pair of binary-search bounds
(`lower_bound_by`, `upper_bound_by`) of the comparator `rangeCmp`,
i.e. the first index whose comparison is not `Less` and the first index
whose comparison is `Greater`. -/
def equal_range_by_time {T : Type} (slice : List (Timed T)) (lo hi : ℚ) : ℕ × ℕ :=
  ((slice.takeWhile fun x => rangeCmp lo hi x == Ordering.lt).length,
   (slice.takeWhile fun x => !(rangeCmp lo hi x == Ordering.gt)).length)

/-- Indexing a slice with the returned `Range<usize>` (`&slice[range]`). -/
def extractRange {T : Type} (slice : List (Timed T)) (r : ℕ × ℕ) : List (Timed T) :=
  (slice.take r.2).drop r.1

/-- Sortedness invariant of all chart sequences: ascending by `time`. -/
def SortedByTime {T : Type} (slice : List (Timed T)) : Prop :=
  slice.Pairwise fun a b => a.time ≤ b.time

section TakeWhileFacts

variable {α : Type}

theorem takeWhile_ext (p q : α → Bool) :
    ∀ l : List α, (∀ a ∈ l, p a = q a) → l.takeWhile p = l.takeWhile q := by
  intro l
  induction l with
  | nil => intro _; rfl
  | cons x xs ih =>
    intro h
    have hx : p x = q x := h x (List.mem_cons_self x xs)
    have hxs := ih fun a ha => h a (List.mem_cons_of_mem x ha)
    simp only [List.takeWhile_cons, hx, hxs]

theorem takeWhile_length_le (p : α → Bool) (l : List α) :
    (l.takeWhile p).length ≤ l.length :=
  (List.takeWhile_sublist (p := p) (l := l)).length_le

theorem takeWhile_length_mono (p q : α → Bool) (himp : ∀ a, p a = true → q a = true) :
    ∀ l : List α, (l.takeWhile p).length ≤ (l.takeWhile q).length := by
  intro l
  induction l with
  | nil => simp
  | cons x xs ih =>
    cases hpx : p x with
    | true =>
      have hq := himp x hpx
      simp only [List.takeWhile_cons, hpx, hq, if_true, List.length_cons]
      exact Nat.succ_le_succ ih
    | false => simp [List.takeWhile_cons, hpx]

theorem takeWhile_pred (p : α → Bool) (d : α) :
    ∀ (l : List α) (i : ℕ), i < (l.takeWhile p).length → p (l.getD i d) = true := by
  intro l
  induction l with
  | nil => simp
  | cons x xs ih =>
    intro i hi
    cases hpx : p x with
    | true =>
      cases i with
      | zero => simpa using hpx
      | succ j =>
        simp only [List.takeWhile_cons, hpx, if_true, List.length_cons,
          Nat.succ_lt_succ_iff] at hi
        simpa using ih j hi
    | false => simp [List.takeWhile_cons, hpx] at hi

theorem takeWhile_stop (p : α → Bool) (d : α) :
    ∀ l : List α, (l.takeWhile p).length < l.length →
      p (l.getD (l.takeWhile p).length d) = false := by
  intro l
  induction l with
  | nil => simp
  | cons x xs ih =>
    intro h
    cases hpx : p x with
    | true =>
      simp only [List.takeWhile_cons, hpx, if_true, List.length_cons,
        Nat.succ_lt_succ_iff] at h
      simpa [List.takeWhile_cons, hpx] using ih h
    | false => simp [List.takeWhile_cons, hpx]

theorem takeWhile_length_eq (p : α → Bool) (d : α) (l : List α) (i : ℕ)
    (hle : i ≤ l.length)
    (hall : ∀ j, j < i → p (l.getD j d) = true)
    (hend : i = l.length ∨ (i < l.length ∧ p (l.getD i d) = false)) :
    (l.takeWhile p).length = i := by
  rcases Nat.lt_trichotomy (l.takeWhile p).length i with hlt | heq | hgt
  · exfalso
    have hlen : (l.takeWhile p).length < l.length := lt_of_lt_of_le hlt hle
    have h1 := takeWhile_stop p d l hlen
    have h2 := hall _ hlt
    simp_all
  · exact heq
  · exfalso
    rcases hend with hE | ⟨hilen, hfalse⟩
    · exact absurd (takeWhile_length_le p l) (by omega)
    · have := takeWhile_pred p d l i hgt
      simp_all

theorem take_length_takeWhile (p : α → Bool) :
    ∀ l : List α, l.take (l.takeWhile p).length = l.takeWhile p := by
  intro l
  induction l with
  | nil => rfl
  | cons x xs ih =>
    cases hpx : p x with
    | true => simp [List.takeWhile_cons, hpx, ih]
    | false => simp [List.takeWhile_cons, hpx]

end TakeWhileFacts

/-- The `lower_bound` index used throughout: for a time-sorted slice, the
first index whose time is not strictly below `t`. -/
def lowerIdx {T : Type} (slice : List (Timed T)) (t : ℚ) : ℕ :=
  (slice.takeWhile fun x => decide (x.time < t)).length

theorem equal_range_fst {T : Type} (slice : List (Timed T)) (lo hi : ℚ) :
    (equal_range_by_time slice lo hi).1 = lowerIdx slice lo := by
  show (slice.takeWhile fun x => rangeCmp lo hi x == Ordering.lt).length
      = (slice.takeWhile fun x => decide (x.time < lo)).length
  congr 1
  apply takeWhile_ext
  intro a _
  by_cases h1 : a.time < lo
  · simp only [rangeCmp, if_pos h1]
    simp only [h1, decide_True]
    rfl
  · by_cases h2 : hi ≤ a.time
    · simp only [rangeCmp, if_neg h1, if_pos h2]
      simp only [h1, decide_False]
      rfl
    · simp only [rangeCmp, if_neg h1, if_neg h2]
      simp only [h1, decide_False]
      rfl

theorem equal_range_snd {T : Type} (slice : List (Timed T)) (lo hi : ℚ)
    (hlohi : lo ≤ hi) :
    (equal_range_by_time slice lo hi).2 = lowerIdx slice hi := by
  show (slice.takeWhile fun x => !(rangeCmp lo hi x == Ordering.gt)).length
      = (slice.takeWhile fun x => decide (x.time < hi)).length
  congr 1
  apply takeWhile_ext
  intro a _
  by_cases h1 : a.time < lo
  · have h2 : a.time < hi := lt_of_lt_of_le h1 hlohi
    simp only [rangeCmp, if_pos h1]
    simp only [h2, decide_True]
    rfl
  · by_cases h2 : hi ≤ a.time
    · simp only [rangeCmp, if_neg h1, if_pos h2]
      simp only [not_lt.mpr h2, decide_False]
      rfl
    · simp only [rangeCmp, if_neg h1, if_neg h2]
      simp only [lt_of_not_le h2, decide_True]
      rfl

theorem lowerIdx_cons_pos {T : Type} (x : Timed T) (xs : List (Timed T)) (t : ℚ)
    (h : x.time < t) : lowerIdx (x :: xs) t = lowerIdx xs t + 1 := by
  simp [lowerIdx, List.takeWhile_cons, h]

theorem lowerIdx_cons_neg {T : Type} (x : Timed T) (xs : List (Timed T)) (t : ℚ)
    (h : ¬ x.time < t) : lowerIdx (x :: xs) t = 0 := by
  simp [lowerIdx, List.takeWhile_cons, h]

theorem lowerIdx_le_length {T : Type} (s : List (Timed T)) (t : ℚ) :
    lowerIdx s t ≤ s.length :=
  takeWhile_length_le _ s

theorem lowerIdx_mono {T : Type} (s : List (Timed T)) {t₁ t₂ : ℚ} (h : t₁ ≤ t₂) :
    lowerIdx s t₁ ≤ lowerIdx s t₂ :=
  takeWhile_length_mono _ _
    (fun a ha => by
      simp only [decide_eq_true_eq] at ha ⊢
      exact lt_of_lt_of_le ha h) s

theorem sorted_filter_lt_eq_takeWhile {T : Type} (hi : ℚ) :
    ∀ s : List (Timed T), SortedByTime s →
      (s.filter fun x => decide (x.time < hi))
        = s.takeWhile fun x => decide (x.time < hi) := by
  intro s
  induction s with
  | nil => intro _; rfl
  | cons x xs ih =>
    intro hs
    rcases List.pairwise_cons.mp hs with ⟨hx, hxs⟩
    by_cases hlt : x.time < hi
    · simp [List.filter_cons, List.takeWhile_cons, hlt, ih hxs]
    · have hnone : ∀ y ∈ xs, ¬ decide (y.time < hi) = true := fun y hy => by
        simp only [decide_eq_true_eq]
        exact not_lt.mpr (le_trans (not_lt.mp hlt) (hx y hy))
      simp only [List.filter_cons, List.takeWhile_cons, hlt, decide_False,
        if_false, Bool.false_eq_true]
      exact List.filter_eq_nil_iff.mpr hnone

theorem sorted_take_drop_eq_filter {T : Type} (lo hi : ℚ) (hlohi : lo ≤ hi) :
    ∀ s : List (Timed T), SortedByTime s →
      (s.take (lowerIdx s hi)).drop (lowerIdx s lo)
        = s.filter fun x => decide (lo ≤ x.time) && decide (x.time < hi) := by
  intro s
  induction s with
  | nil => intro _; rfl
  | cons x xs ih =>
    intro hs
    rcases List.pairwise_cons.mp hs with ⟨hx, hxs⟩
    by_cases h1 : x.time < lo
    · have h2 : x.time < hi := lt_of_lt_of_le h1 hlohi
      rw [lowerIdx_cons_pos x xs lo h1, lowerIdx_cons_pos x xs hi h2]
      rw [List.take_succ_cons, List.drop_succ_cons, List.filter_cons,
        if_neg (by simp [not_le.mpr h1])]
      exact ih hxs
    · by_cases h2 : x.time < hi
      · rw [lowerIdx_cons_neg x xs lo h1, lowerIdx_cons_pos x xs hi h2]
        have hxlo : lo ≤ x.time := not_lt.mp h1
        rw [List.take_succ_cons, List.drop_zero, List.filter_cons,
          if_pos (by simp [hxlo, h2])]
        congr 1
        rw [show lowerIdx xs hi = (xs.takeWhile fun y => decide (y.time < hi)).length from rfl,
          take_length_takeWhile, ← sorted_filter_lt_eq_takeWhile hi xs hxs]
        apply List.filter_congr
        intro y hy
        have : lo ≤ y.time := le_trans hxlo (hx y hy)
        simp [this]
      · rw [lowerIdx_cons_neg x xs lo h1, lowerIdx_cons_neg x xs hi h2]
        have hxhi : hi ≤ x.time := not_lt.mp h2
        rw [List.take_zero, List.drop_zero, List.filter_cons, if_neg (by simp [h2])]
        symm
        apply List.filter_eq_nil_iff.mpr
        intro y hy
        have : hi ≤ y.time := le_trans hxhi (hx y hy)
        simp [not_lt.mpr this]

theorem sorted_extract_eq_filter {T : Type} (s : List (Timed T)) (lo hi : ℚ)
    (hs : SortedByTime s) (hlohi : lo ≤ hi) :
    extractRange s (equal_range_by_time s lo hi)
      = s.filter fun x => decide (lo ≤ x.time) && decide (x.time < hi) := by
  unfold extractRange
  rw [equal_range_fst, equal_range_snd s lo hi hlohi]
  exact sorted_take_drop_eq_filter lo hi hlohi s hs

theorem extract_tiles {T : Type} (s : List (Timed T)) (lo mid hi : ℚ)
    (h1 : lo ≤ mid) (h2 : mid ≤ hi) :
    extractRange s (equal_range_by_time s lo mid)
        ++ extractRange s (equal_range_by_time s mid hi)
      = extractRange s (equal_range_by_time s lo hi) := by
  unfold extractRange
  rw [equal_range_fst, equal_range_snd s lo mid h1, equal_range_fst,
    equal_range_snd s mid hi h2, equal_range_fst, equal_range_snd s lo hi (le_trans h1 h2)]
  have hlm : lowerIdx s lo ≤ lowerIdx s mid := lowerIdx_mono s h1
  have hmu : lowerIdx s mid ≤ lowerIdx s hi := lowerIdx_mono s h2
  have hlen : lowerIdx s lo ≤ s.length := lowerIdx_le_length s lo
  set l := lowerIdx s lo
  set m := lowerIdx s mid
  set u := lowerIdx s hi
  have htake : s.take m = (s.take u).take m := by
    rw [List.take_take, min_eq_left hmu]
  rw [htake]
  set U := s.take u with hU
  have hsplit : U.take m ++ U.drop m = U := List.take_append_drop m U
  have hlelen : l ≤ (U.take m).length := by
    rw [List.length_take]
    refine le_min (le_trans hlm le_rfl) ?_
    rw [hU, List.length_take]
    exact le_min (le_trans hlm hmu) hlen
  calc (U.take m).drop l ++ U.drop m
      = (U.take m).drop l ++ (U.drop m).drop (l - (U.take m).length) := by
        rw [Nat.sub_eq_zero_of_le hlelen, List.drop_zero]
    _ = (U.take m ++ U.drop m).drop l := by rw [List.drop_append_eq_append_drop]
    _ = U.drop l := by rw [hsplit]

/-- C1: for a time-sorted slice and bounds `lo ≤ mid ≤ hi`,
`equal_range_by_time` yields exactly the contiguous subrange of elements with
`lo ≤ time < hi`; adjacent half-open queries tile the sequence with no
element duplicated or skipped, and a `lo = lo` query is empty. -/
theorem equal_range_by_time_correct {T : Type} (s : List (Timed T)) (lo mid hi : ℚ)
    (hs : SortedByTime s) (h1 : lo ≤ mid) (h2 : mid ≤ hi) :
    extractRange s (equal_range_by_time s lo hi)
        = s.filter (fun x => decide (lo ≤ x.time) && decide (x.time < hi))
    ∧ extractRange s (equal_range_by_time s lo mid)
        ++ extractRange s (equal_range_by_time s mid hi)
        = extractRange s (equal_range_by_time s lo hi)
    ∧ (equal_range_by_time s lo mid).2 = (equal_range_by_time s mid hi).1
    ∧ extractRange s (equal_range_by_time s lo lo) = [] := by
  refine ⟨sorted_extract_eq_filter s lo hi hs (le_trans h1 h2),
    extract_tiles s lo mid hi h1 h2, ?_, ?_⟩
  · rw [equal_range_snd s lo mid h1, equal_range_fst]
  · rw [sorted_extract_eq_filter s lo lo hs le_rfl]
    apply List.filter_eq_nil_iff.mpr
    intro a _
    simp only [Bool.and_eq_true, decide_eq_true_eq, not_and]
    intro hle
    exact not_lt.mpr hle

theorem equal_range_by_time_correct_witness :
    SortedByTime [(⟨0, 0⟩ : Timed ℕ), ⟨1, 1⟩, ⟨2, 2⟩]
    ∧ (0 : ℚ) ≤ 1 ∧ (1 : ℚ) ≤ 2
    ∧ (extractRange [(⟨0, 0⟩ : Timed ℕ), ⟨1, 1⟩, ⟨2, 2⟩]
          (equal_range_by_time [(⟨0, 0⟩ : Timed ℕ), ⟨1, 1⟩, ⟨2, 2⟩] 0 2)
        = List.filter (fun x => decide ((0:ℚ) ≤ x.time) && decide (x.time < 2))
            [(⟨0, 0⟩ : Timed ℕ), ⟨1, 1⟩, ⟨2, 2⟩]
      ∧ extractRange [(⟨0, 0⟩ : Timed ℕ), ⟨1, 1⟩, ⟨2, 2⟩]
            (equal_range_by_time [(⟨0, 0⟩ : Timed ℕ), ⟨1, 1⟩, ⟨2, 2⟩] 0 1)
          ++ extractRange [(⟨0, 0⟩ : Timed ℕ), ⟨1, 1⟩, ⟨2, 2⟩]
            (equal_range_by_time [(⟨0, 0⟩ : Timed ℕ), ⟨1, 1⟩, ⟨2, 2⟩] 1 2)
          = extractRange [(⟨0, 0⟩ : Timed ℕ), ⟨1, 1⟩, ⟨2, 2⟩]
            (equal_range_by_time [(⟨0, 0⟩ : Timed ℕ), ⟨1, 1⟩, ⟨2, 2⟩] 0 2)
      ∧ (equal_range_by_time [(⟨0, 0⟩ : Timed ℕ), ⟨1, 1⟩, ⟨2, 2⟩] 0 1).2
          = (equal_range_by_time [(⟨0, 0⟩ : Timed ℕ), ⟨1, 1⟩, ⟨2, 2⟩] 1 2).1
      ∧ extractRange [(⟨0, 0⟩ : Timed ℕ), ⟨1, 1⟩, ⟨2, 2⟩]
          (equal_range_by_time [(⟨0, 0⟩ : Timed ℕ), ⟨1, 1⟩, ⟨2, 2⟩] 0 0) = []) :=
  ⟨by norm_num [SortedByTime, List.pairwise_cons], by norm_num, by norm_num,
    equal_range_by_time_correct [(⟨0, 0⟩ : Timed ℕ), ⟨1, 1⟩, ⟨2, 2⟩] 0 1 2
      (by norm_num [SortedByTime, List.pairwise_cons]) (by norm_num) (by norm_num)⟩

/-- `BpmCommand` (`chart.rs`): a tempo point with its cumulative position. -/
structure BpmCommand where
  bpm : ℚ
  position : ℚ
deriving Repr, DecidableEq

/-- Placeholder value for out-of-bounds `getD`; every theorem below carries a
nonemptiness hypothesis under which indexing stays in bounds (the source
`&bpms[idx]` would panic only on an empty tempo sequence, a load-time
validation failure per the spec). -/
def dummyBpm : Timed BpmCommand := ⟨0, ⟨0, 0⟩⟩

/-- `position_for_time` (`chart.rs` lines 109-114): index
`lower_bound_by(time).saturating_sub(1)`, then linear interpolation
`position + (time - point.time) * bpm / 60`. -/
def position_for_time (bpms : List (Timed BpmCommand)) (time : ℚ) : ℚ :=
  let lb := bpms.getD (lowerIdx bpms time - 1) dummyBpm
  lb.inner.position + (time - lb.time) * lb.inner.bpm / 60

theorem position_for_time_eq (bpms : List (Timed BpmCommand)) (time : ℚ) :
    position_for_time bpms time
      = (bpms.getD (lowerIdx bpms time - 1) dummyBpm).inner.position
        + (time - (bpms.getD (lowerIdx bpms time - 1) dummyBpm).time)
          * (bpms.getD (lowerIdx bpms time - 1) dummyBpm).inner.bpm / 60 := rfl

/-- The selection rule asserted by the claim, for comparison with the code:
the last tempo point whose `point.time ≤ time` (saturating at index 0),
then the same interpolation formula. -/
def position_for_time_claimed (bpms : List (Timed BpmCommand)) (time : ℚ) : ℚ :=
  let lb := bpms.getD ((bpms.takeWhile fun x => decide (x.time ≤ time)).length - 1) dummyBpm
  lb.inner.position + (time - lb.time) * lb.inner.bpm / 60

/-- C5 counterexample: on the sorted two-point tempo sequence
`[(t=0, bpm=60, pos=0), (t=1, bpm=60, pos=100)]` at `time = 1`, the code
interpolates from the first point (`time < 1` is a strict bound) and returns
`1`, while the claimed rule ("last point with `point.time ≤ time`") selects
the second point and returns `100`. -/
theorem position_for_time_counterexample :
    position_for_time [⟨0, ⟨60, 0⟩⟩, ⟨1, ⟨60, 100⟩⟩] 1 = 1
    ∧ position_for_time_claimed [⟨0, ⟨60, 0⟩⟩, ⟨1, ⟨60, 100⟩⟩] 1 = 100
    ∧ SortedByTime [(⟨0, ⟨60, 0⟩⟩ : Timed BpmCommand), ⟨1, ⟨60, 100⟩⟩]
    ∧ (1 : ℚ) ≠ 100 := by
  refine ⟨?_, ?_, by norm_num [SortedByTime, List.pairwise_cons], by norm_num⟩ <;>
    norm_num [position_for_time, position_for_time_claimed, lowerIdx,
      List.takeWhile_cons, dummyBpm]

/-- C5 (amended): `position_for_time` selects the last tempo point whose
`point.time < time` (strictly; saturating to the first point when no point
lies strictly before `time`) and returns
`point.position + (time - point.time) * point.bpm / 60`. -/
theorem position_for_time_characterization (bpms : List (Timed BpmCommand)) (time : ℚ)
    (hne : bpms ≠ []) (hs : SortedByTime bpms) :
    (time ≤ (bpms.getD 0 dummyBpm).time →
      position_for_time bpms time
        = (bpms.getD 0 dummyBpm).inner.position
          + (time - (bpms.getD 0 dummyBpm).time) * (bpms.getD 0 dummyBpm).inner.bpm / 60)
    ∧ ∀ i, i < bpms.length → (bpms.getD i dummyBpm).time < time →
        (i + 1 = bpms.length ∨ time ≤ (bpms.getD (i + 1) dummyBpm).time) →
        position_for_time bpms time
          = (bpms.getD i dummyBpm).inner.position
            + (time - (bpms.getD i dummyBpm).time) * (bpms.getD i dummyBpm).inner.bpm / 60 := by
  have hlen : 0 < bpms.length := List.length_pos.mpr hne
  constructor
  · intro h0
    have hidx : lowerIdx bpms time = 0 := by
      apply takeWhile_length_eq _ dummyBpm bpms 0 (Nat.zero_le _)
        (fun j hj => absurd hj (Nat.not_lt_zero j))
      right
      exact ⟨hlen, decide_eq_false (not_lt.mpr h0)⟩
    unfold position_for_time
    rw [hidx]
  · intro i hi hlt hnext
    have hsorted := List.pairwise_iff_getElem.mp hs
    have hidx : lowerIdx bpms time = i + 1 := by
      apply takeWhile_length_eq _ dummyBpm bpms (i + 1) (by omega)
      · intro j hj
        have hjlen : j < bpms.length := by omega
        have hji : (bpms.getD j dummyBpm).time ≤ (bpms.getD i dummyBpm).time := by
          rcases Nat.lt_or_ge j i with hji | hji
          · rw [List.getD_eq_getElem bpms dummyBpm hjlen,
              List.getD_eq_getElem bpms dummyBpm hi]
            exact hsorted j i hjlen hi hji
          · have : j = i := by omega
            subst this
            exact le_rfl
        simp only [decide_eq_true_eq]
        exact lt_of_le_of_lt hji hlt
      · by_cases hL : i + 1 = bpms.length
        · left; exact hL
        · rcases hnext with hE | hT
          · left; exact hE
          · right
            exact ⟨by omega, decide_eq_false (not_lt.mpr hT)⟩
    unfold position_for_time
    rw [hidx, Nat.add_sub_cancel]

theorem position_for_time_characterization_witness :
    ([(⟨0, ⟨120, 0⟩⟩ : Timed BpmCommand), ⟨2, ⟨60, 4⟩⟩] ≠ [])
    ∧ SortedByTime [(⟨0, ⟨120, 0⟩⟩ : Timed BpmCommand), ⟨2, ⟨60, 4⟩⟩]
    ∧ position_for_time [(⟨0, ⟨120, 0⟩⟩ : Timed BpmCommand), ⟨2, ⟨60, 4⟩⟩] 3 = 5 := by
  refine ⟨by simp, by norm_num [SortedByTime, List.pairwise_cons], ?_⟩
  have h := (position_for_time_characterization
      [(⟨0, ⟨120, 0⟩⟩ : Timed BpmCommand), ⟨2, ⟨60, 4⟩⟩] 3 (by simp) (by norm_num [SortedByTime, List.pairwise_cons])).2
      1 (by norm_num) (by norm_num [dummyBpm]) (by norm_num)
  rw [h]
  norm_num

/-- Non-negative tempo hypothesis of C7. -/
def BpmNonneg (bpms : List (Timed BpmCommand)) : Prop :=
  ∀ x ∈ bpms, 0 ≤ x.inner.bpm

/-- The cumulative-position chart invariant (spec §3: `position` is the
cumulative tempo-independent distance): each point's position is the previous
position advanced by the elapsed time at the previous tempo. -/
def BpmConsistent (bpms : List (Timed BpmCommand)) : Prop :=
  ∀ i, i + 1 < bpms.length →
    (bpms.getD (i + 1) dummyBpm).inner.position
      = (bpms.getD i dummyBpm).inner.position
        + ((bpms.getD (i + 1) dummyBpm).time - (bpms.getD i dummyBpm).time)
          * (bpms.getD i dummyBpm).inner.bpm / 60

/-- C7 counterexample: the sorted, non-negative-bpm sequence
`[(t=0, bpm=0, pos=100), (t=1, bpm=0, pos=0)]` (whose positions are not the
cumulative integral) makes `position_for_time` strictly decrease from
`time = 1/2` to `time = 3/2`. -/
theorem position_for_time_mono_counterexample :
    SortedByTime [(⟨0, ⟨0, 100⟩⟩ : Timed BpmCommand), ⟨1, ⟨0, 0⟩⟩]
    ∧ BpmNonneg [(⟨0, ⟨0, 100⟩⟩ : Timed BpmCommand), ⟨1, ⟨0, 0⟩⟩]
    ∧ ([(⟨0, ⟨0, 100⟩⟩ : Timed BpmCommand), ⟨1, ⟨0, 0⟩⟩] ≠ [])
    ∧ (1/2 : ℚ) ≤ 3/2
    ∧ position_for_time [(⟨0, ⟨0, 100⟩⟩ : Timed BpmCommand), ⟨1, ⟨0, 0⟩⟩] (3/2)
        < position_for_time [(⟨0, ⟨0, 100⟩⟩ : Timed BpmCommand), ⟨1, ⟨0, 0⟩⟩] (1/2) := by
  refine ⟨by norm_num [SortedByTime, List.pairwise_cons],
    by norm_num [BpmNonneg, List.forall_mem_cons], by simp, by norm_num, ?_⟩
  norm_num [position_for_time, lowerIdx, List.takeWhile_cons, dummyBpm]

/-- C7 (amended): for a non-empty time-sorted tempo sequence with
non-negative bpm whose positions satisfy the cumulative-position invariant,
`position_for_time` is non-decreasing in `time`. -/
theorem position_for_time_mono (bpms : List (Timed BpmCommand))
    (hne : bpms ≠ []) (hs : SortedByTime bpms)
    (hb : BpmNonneg bpms) (hc : BpmConsistent bpms)
    (t₁ t₂ : ℚ) (ht : t₁ ≤ t₂) :
    position_for_time bpms t₁ ≤ position_for_time bpms t₂ := by
  have hn : 0 < bpms.length := List.length_pos.mpr hne
  have hB : ∀ k, k < bpms.length → 0 ≤ (bpms.getD k dummyBpm).inner.bpm := by
    intro k hk
    rw [List.getD_eq_getElem bpms dummyBpm hk]
    exact hb _ (List.getElem_mem hk)
  have hsorted : ∀ i j, i ≤ j → j < bpms.length →
      (bpms.getD i dummyBpm).time ≤ (bpms.getD j dummyBpm).time := by
    intro i j hij hj
    rcases eq_or_lt_of_le hij with rfl | hlt
    · exact le_rfl
    · rw [List.getD_eq_getElem bpms dummyBpm (lt_trans hlt hj),
        List.getD_eq_getElem bpms dummyBpm hj]
      exact List.pairwise_iff_getElem.mp hs i j (lt_trans hlt hj) hj hlt
  have hTlt : ∀ (t : ℚ) (j : ℕ), j < lowerIdx bpms t →
      (bpms.getD j dummyBpm).time < t := by
    intro t j hj
    unfold lowerIdx at hj
    have := takeWhile_pred _ dummyBpm bpms j hj
    simpa using this
  have hTge : ∀ t : ℚ, lowerIdx bpms t < bpms.length →
      t ≤ (bpms.getD (lowerIdx bpms t) dummyBpm).time := by
    intro t hlt
    unfold lowerIdx at hlt ⊢
    have := takeWhile_stop _ dummyBpm bpms hlt
    simp only [decide_eq_false_iff_not, not_lt] at this
    exact this
  have hstep : ∀ k, k + 1 < bpms.length →
      (bpms.getD k dummyBpm).inner.position ≤ (bpms.getD (k + 1) dummyBpm).inner.position := by
    intro k hk
    have hTk := hsorted k (k + 1) (Nat.le_succ k) hk
    have hBk := hB k (by omega)
    have hmul : 0 ≤ ((bpms.getD (k + 1) dummyBpm).time - (bpms.getD k dummyBpm).time)
        * (bpms.getD k dummyBpm).inner.bpm / 60 := by
      apply div_nonneg _ (by norm_num)
      exact mul_nonneg (sub_nonneg.mpr hTk) hBk
    have := hc k hk
    linarith
  have posMono : ∀ i j, i ≤ j → j < bpms.length →
      (bpms.getD i dummyBpm).inner.position ≤ (bpms.getD j dummyBpm).inner.position := by
    intro i j hij hj
    obtain ⟨d, rfl⟩ := Nat.exists_eq_add_of_le hij
    clear hij
    induction d with
    | zero => exact le_rfl
    | succ d ih =>
      have h1 : i + d + 1 < bpms.length := by omega
      calc (bpms.getD i dummyBpm).inner.position
          ≤ (bpms.getD (i + d) dummyBpm).inner.position := ih (by omega)
        _ ≤ (bpms.getD (i + d + 1) dummyBpm).inner.position := hstep (i + d) h1
  have hc₁n : lowerIdx bpms t₁ - 1 < bpms.length := by
    have := lowerIdx_le_length bpms t₁; omega
  have hc₂n : lowerIdx bpms t₂ - 1 < bpms.length := by
    have := lowerIdx_le_length bpms t₂; omega
  have hij : lowerIdx bpms t₁ - 1 ≤ lowerIdx bpms t₂ - 1 :=
    Nat.sub_le_sub_right (lowerIdx_mono bpms ht) 1
  rw [position_for_time_eq bpms t₁, position_for_time_eq bpms t₂]
  set i := lowerIdx bpms t₁ - 1 with hidef
  set j := lowerIdx bpms t₂ - 1 with hjdef
  rcases eq_or_lt_of_le hij with heq | hlt
  · rw [← heq]
    have hBk := hB i hc₁n
    have hmul : (t₁ - (bpms.getD i dummyBpm).time) * (bpms.getD i dummyBpm).inner.bpm / 60
        ≤ (t₂ - (bpms.getD i dummyBpm).time) * (bpms.getD i dummyBpm).inner.bpm / 60 := by
      apply (div_le_div_iff_of_pos_right (by norm_num : (0:ℚ) < 60)).mpr
      exact mul_le_mul_of_nonneg_right (by linarith) hBk
    linarith
  · have hj1 : 1 ≤ j := by omega
    have hc₂ : lowerIdx bpms t₂ = j + 1 := by omega
    have hTj : (bpms.getD j dummyBpm).time < t₂ := hTlt t₂ j (by omega)
    have hi1n : i + 1 < bpms.length := by omega
    have ht₁step : t₁ ≤ (bpms.getD (i + 1) dummyBpm).time := by
      have hc₁le : lowerIdx bpms t₁ ≤ i + 1 := by omega
      have hc₁n' : lowerIdx bpms t₁ < bpms.length := by omega
      have h2 := hTge t₁ hc₁n'
      have h3 := hsorted (lowerIdx bpms t₁) (i + 1) hc₁le hi1n
      linarith
    have hBi := hB i (by omega)
    have hBj := hB j (by omega)
    have hF₁ : (bpms.getD i dummyBpm).inner.position
        + (t₁ - (bpms.getD i dummyBpm).time) * (bpms.getD i dummyBpm).inner.bpm / 60
        ≤ (bpms.getD (i + 1) dummyBpm).inner.position := by
      have hcons := hc i hi1n
      have hmul : (t₁ - (bpms.getD i dummyBpm).time) * (bpms.getD i dummyBpm).inner.bpm / 60
          ≤ ((bpms.getD (i + 1) dummyBpm).time - (bpms.getD i dummyBpm).time)
              * (bpms.getD i dummyBpm).inner.bpm / 60 := by
        apply (div_le_div_iff_of_pos_right (by norm_num : (0:ℚ) < 60)).mpr
        exact mul_le_mul_of_nonneg_right (by linarith) hBi
      linarith
    have hP : (bpms.getD (i + 1) dummyBpm).inner.position
        ≤ (bpms.getD j dummyBpm).inner.position := posMono (i + 1) j (by omega) (by omega)
    have hF₂ : (bpms.getD j dummyBpm).inner.position
        ≤ (bpms.getD j dummyBpm).inner.position
          + (t₂ - (bpms.getD j dummyBpm).time) * (bpms.getD j dummyBpm).inner.bpm / 60 := by
      have hmul : 0 ≤ (t₂ - (bpms.getD j dummyBpm).time) * (bpms.getD j dummyBpm).inner.bpm / 60 := by
        apply div_nonneg _ (by norm_num)
        exact mul_nonneg (by linarith) hBj
      linarith
    linarith

theorem position_for_time_mono_witness :
    ([(⟨0, ⟨60, 0⟩⟩ : Timed BpmCommand), ⟨1, ⟨120, 1⟩⟩] ≠ [])
    ∧ SortedByTime [(⟨0, ⟨60, 0⟩⟩ : Timed BpmCommand), ⟨1, ⟨120, 1⟩⟩]
    ∧ BpmNonneg [(⟨0, ⟨60, 0⟩⟩ : Timed BpmCommand), ⟨1, ⟨120, 1⟩⟩]
    ∧ BpmConsistent [(⟨0, ⟨60, 0⟩⟩ : Timed BpmCommand), ⟨1, ⟨120, 1⟩⟩]
    ∧ (1/2 : ℚ) ≤ 2
    ∧ position_for_time [(⟨0, ⟨60, 0⟩⟩ : Timed BpmCommand), ⟨1, ⟨120, 1⟩⟩] (1/2)
        ≤ position_for_time [(⟨0, ⟨60, 0⟩⟩ : Timed BpmCommand), ⟨1, ⟨120, 1⟩⟩] 2 := by
  have hcons : BpmConsistent [(⟨0, ⟨60, 0⟩⟩ : Timed BpmCommand), ⟨1, ⟨120, 1⟩⟩] := by
    intro i hi
    simp only [List.length_cons, List.length_nil] at hi
    have h0 : i = 0 := by omega
    subst h0
    norm_num [List.getD, dummyBpm]
  exact ⟨by simp, by norm_num [SortedByTime, List.pairwise_cons],
    by norm_num [BpmNonneg, List.forall_mem_cons], hcons, by norm_num,
    position_for_time_mono [(⟨0, ⟨60, 0⟩⟩ : Timed BpmCommand), ⟨1, ⟨120, 1⟩⟩]
      (by simp) (by norm_num [SortedByTime, List.pairwise_cons])
      (by norm_num [BpmNonneg, List.forall_mem_cons]) hcons (1/2) 2 (by norm_num)⟩

/-- `Note` (`chart.rs`): a chart note referencing its laser id and lane. -/
structure Note where
  laser : ℕ
  lane : ℕ
deriving Repr, DecidableEq

/-- `LaserCommand` (`chart.rs`). The color payload is an opaque RGB triple;
`LineTo`'s `Timed<()>` field is represented by its time. -/
inductive LaserCommand where
  | enter (y : ℚ) (lanes : ℕ) (color : ℚ × ℚ × ℚ)
  | leave
  | lineTo (time : ℚ) (y : ℚ)
deriving Repr, DecidableEq

/-- `Chart` (`chart.rs`): notes, tempo points and laser events, all sorted by
time, plus the fallback tempo. -/
structure Chart where
  notes : List (Timed Note)
  bpm : List (Timed BpmCommand)
  lasers : List (Timed (ℕ × LaserCommand))
  default_bpm : ℚ

/-- `PlaySettings`: `chart.rs` declares `speed` and `base_time`;
`judge.rs` additionally destructures `offset` and `norm_threshold` from the
same resource (a later revision of the struct), so the model carries all
four fields. -/
structure PlaySettings where
  speed : ℚ
  base_time : ℚ
  offset : ℚ
  norm_threshold : ℚ
deriving Repr, DecidableEq

/-- `ChartState` (`chart.rs`). The `lasers` map (`BTreeMap<LaserId, Entity>`)
is an association list with unique keys, laser id ↦ (entity id, lane count);
the lane count stands for the `Laser` component the scheduler reads back at
note-spawn time. -/
structure ChartState where
  draw_window : ℚ × ℚ
  cutoff : ℚ
  lasers : List (ℕ × ℕ × ℕ)
  last_time : ℚ
deriving Repr, DecidableEq

/-- `Default for ChartState` (`chart.rs`): `0..0`, `0.7`, empty map, `0`. -/
def defaultChartState : ChartState := ⟨(0, 0), 7/10, [], 0⟩

def lookupLaser (m : List (ℕ × ℕ × ℕ)) (k : ℕ) : Option (ℕ × ℕ) :=
  (m.find? fun e => e.1 == k).map (fun e => e.2)

/-- A note-spawn intent: created entity, parent laser entity, and the
transform written by the scheduler (`translation_x`, x-scale,
`translation_z`). -/
structure SpawnedNote where
  entity : ℕ
  parent : ℕ
  x : ℚ
  xscale : ℚ
  z : ℚ
deriving Repr, DecidableEq

/-- Entity create/destroy intents issued by one scheduler tick. -/
structure SchedOut where
  spawnedLasers : List (ℕ × ℚ)
  despawnedLasers : List ℕ
  spawnedNotes : List SpawnedNote
deriving Repr, DecidableEq

def emptySchedOut : SchedOut := ⟨[], [], []⟩

/-- Working state of one scheduler tick: the live lane-group map, the
fresh-entity counter, and the accumulated intents. -/
structure SchedAcc where
  lasers : List (ℕ × ℕ × ℕ)
  next : ℕ
  out : SchedOut
deriving Repr, DecidableEq

/-- Processing of one due laser event (`chart.rs` lines 155-173):
`Enter` asserts the id was absent and creates a lane-group; `Leave` unwraps
the existing entry and destroys it; `LineTo` hits `unimplemented!()`.
`none` is the aborted session. -/
def laserStep (acc : SchedAcc) (ev : Timed (ℕ × LaserCommand)) : Option SchedAcc :=
  match ev.inner.2 with
  | LaserCommand.enter y lanes _ =>
    match lookupLaser acc.lasers ev.inner.1 with
    | some _ => none
    | none =>
      some { lasers := acc.lasers ++ [(ev.inner.1, acc.next, lanes)],
             next := acc.next + 1,
             out := { acc.out with
               spawnedLasers := acc.out.spawnedLasers ++ [(acc.next, y)] } }
  | LaserCommand.leave =>
    match lookupLaser acc.lasers ev.inner.1 with
    | none => none
    | some (e, _) =>
      some { lasers := acc.lasers.filter fun p => !(p.1 == ev.inner.1),
             next := acc.next,
             out := { acc.out with
               despawnedLasers := acc.out.despawnedLasers ++ [e] } }
  | LaserCommand.lineTo _ _ => none

/-- Processing of one due note (`chart.rs` lines 174-190): resolve the laser
id in the live map (`state.lasers[&id]`, panics when absent), then spawn the
note with `x = lane / lanes`, x-scale `1 / lanes`, and
`z = position_for_time(bpm, note.time)`. -/
def noteStep (bpm : List (Timed BpmCommand)) (acc : SchedAcc) (ev : Timed Note) :
    Option SchedAcc :=
  match lookupLaser acc.lasers ev.inner.laser with
  | none => none
  | some (e, lanes) =>
    some { acc with
           next := acc.next + 1,
           out := { acc.out with
             spawnedNotes := acc.out.spawnedNotes ++
               [⟨acc.next, e, (ev.inner.lane : ℚ) / (lanes : ℚ), 1 / (lanes : ℚ),
                 position_for_time bpm ev.time⟩] } }

/-- The laser events due in a tick: time in `[last_time, now_rel)`. -/
def dueLaserEvents (chart : Chart) (st : ChartState) (now_rel : ℚ) :
    List (Timed (ℕ × LaserCommand)) :=
  extractRange chart.lasers (equal_range_by_time chart.lasers st.last_time now_rel)

/-- The notes due in a tick: time in `[last_time + speed, now_rel + speed)`. -/
def dueNoteEvents (chart : Chart) (s : PlaySettings) (st : ChartState) (now_rel : ℚ) :
    List (Timed Note) :=
  extractRange chart.notes
    (equal_range_by_time chart.notes (st.last_time + s.speed) (now_rel + s.speed))

/-- One tick of `NoteSystem::run` (`chart.rs` lines 129-196). Returns the
updated `ChartState`, the entity counter, and the spawn/despawn intents;
`none` models a panic (fatal abort). When `PlaySettings` is absent the tick
does nothing. -/
def noteSystemRun (settings : Option PlaySettings) (chart : Chart) (absTime : ℚ)
    (next : ℕ) (st : ChartState) : Option (ChartState × ℕ × SchedOut) :=
  match settings with
  | none => some (st, next, emptySchedOut)
  | some s =>
    let now_rel := absTime - s.base_time
    let start_pos := position_for_time chart.bpm now_rel
    let end_pos := position_for_time chart.bpm (now_rel + s.speed)
    let cutoff := 7/10 * (end_pos - start_pos) / (chart.default_bpm / 60) / s.speed
    let clamped_cutoff := min cutoff (19/20)
    let clamped_end_pos := start_pos + (end_pos - start_pos) * clamped_cutoff / cutoff
    match (dueLaserEvents chart st now_rel).foldlM laserStep
        (⟨st.lasers, next, emptySchedOut⟩ : SchedAcc) with
    | none => none
    | some acc1 =>
      match (dueNoteEvents chart s st now_rel).foldlM (noteStep chart.bpm) acc1 with
      | none => none
      | some acc2 =>
        some ({ draw_window := (start_pos, clamped_end_pos), cutoff := clamped_cutoff,
                lasers := acc2.lasers, last_time := now_rel }, acc2.next, acc2.out)

/-- The abort conditions for one laser event as the code implements them:
duplicate `Enter`, unmatched `Leave`, or an (unimplemented) `LineTo`. -/
def badLaserEvent (m : List (ℕ × ℕ × ℕ)) (ev : Timed (ℕ × LaserCommand)) : Prop :=
  (∃ y lanes color, ev.inner.2 = LaserCommand.enter y lanes color
      ∧ (lookupLaser m ev.inner.1).isSome = true)
  ∨ (ev.inner.2 = LaserCommand.leave ∧ lookupLaser m ev.inner.1 = none)
  ∨ (∃ t y, ev.inner.2 = LaserCommand.lineTo t y)

/-- The abort conditions asserted by the claim (chart invariant violations
only): duplicate `Enter` or unmatched `Leave` — no `LineTo` case. -/
def badLaserEventClaimed (m : List (ℕ × ℕ × ℕ)) (ev : Timed (ℕ × LaserCommand)) : Prop :=
  (∃ y lanes color, ev.inner.2 = LaserCommand.enter y lanes color
      ∧ (lookupLaser m ev.inner.1).isSome = true)
  ∨ (ev.inner.2 = LaserCommand.leave ∧ lookupLaser m ev.inner.1 = none)

theorem laserStep_none_iff (acc : SchedAcc) (ev : Timed (ℕ × LaserCommand)) :
    laserStep acc ev = none ↔ badLaserEvent acc.lasers ev := by
  cases hcmd : ev.inner.2 with
  | enter y lanes color =>
    cases hl : lookupLaser acc.lasers ev.inner.1 with
    | none => simp [laserStep, badLaserEvent, hcmd, hl]
    | some p => simp [laserStep, badLaserEvent, hcmd, hl]
  | leave =>
    cases hl : lookupLaser acc.lasers ev.inner.1 with
    | none => simp [laserStep, badLaserEvent, hcmd, hl]
    | some p => simp [laserStep, badLaserEvent, hcmd, hl]
  | lineTo t y => simp [laserStep, badLaserEvent, hcmd]

theorem foldlM_option_nil {α β : Type} (f : β → α → Option β) (b : β) :
    ([] : List α).foldlM f b = some b := rfl

theorem foldlM_option_cons {α β : Type} (f : β → α → Option β) (b : β) (x : α) (xs : List α) :
    (x :: xs).foldlM f b
      = match f b x with
        | none => none
        | some b' => xs.foldlM f b' := by
  cases h : f b x <;> simp [List.foldlM_cons, h]

theorem foldlM_option_none_iff {α β : Type} (f : β → α → Option β) :
    ∀ (l : List α) (b : β),
      l.foldlM f b = none ↔
        ∃ pre ev post, l = pre ++ ev :: post ∧
          ∃ b', pre.foldlM f b = some b' ∧ f b' ev = none := by
  intro l
  induction l with
  | nil =>
    intro b
    simp only [foldlM_option_nil]
    constructor
    · intro h; exact absurd h (by simp)
    · rintro ⟨pre, ev, post, habs, -⟩
      exact absurd habs (by simp)
  | cons x xs ih =>
    intro b
    rw [foldlM_option_cons]
    cases hx : f b x with
    | none =>
      simp only [true_iff]
      exact ⟨[], x, xs, rfl, b, rfl, hx⟩
    | some b₁ =>
      rw [ih b₁]
      constructor
      · rintro ⟨pre, ev, post, rfl, b', hpre, hev⟩
        exact ⟨x :: pre, ev, post, rfl, b', by rw [foldlM_option_cons, hx]; exact hpre, hev⟩
      · rintro ⟨pre, ev, post, hsplit, b', hpre, hev⟩
        cases pre with
        | nil =>
          simp only [List.nil_append] at hsplit
          cases hsplit
          rw [foldlM_option_nil] at hpre
          cases hpre
          rw [hx] at hev
          cases hev
        | cons y pre' =>
          rw [List.cons_append] at hsplit
          injection hsplit with hy htail
          subst hy
          subst htail
          rw [foldlM_option_cons, hx] at hpre
          exact ⟨pre', ev, post, rfl, b', hpre, hev⟩

theorem noteStep_some_lasers (bpm : List (Timed BpmCommand)) (acc acc' : SchedAcc)
    (ev : Timed Note) (h : noteStep bpm acc ev = some acc') : acc'.lasers = acc.lasers := by
  cases hl : lookupLaser acc.lasers ev.inner.laser with
  | none => rw [noteStep, hl] at h; cases h
  | some p =>
    obtain ⟨e, lanes⟩ := p
    rw [noteStep, hl] at h
    cases h
    rfl

theorem notes_foldlM_none_iff (bpm : List (Timed BpmCommand)) :
    ∀ (l : List (Timed Note)) (acc : SchedAcc),
      l.foldlM (noteStep bpm) acc = none ↔
        ∃ ev ∈ l, lookupLaser acc.lasers ev.inner.laser = none := by
  intro l
  induction l with
  | nil =>
    intro acc
    simp [foldlM_option_nil]
  | cons x xs ih =>
    intro acc
    rw [foldlM_option_cons]
    cases hl : lookupLaser acc.lasers x.inner.laser with
    | none =>
      have hstep : noteStep bpm acc x = none := by rw [noteStep, hl]
      rw [hstep]
      simp only [true_iff]
      exact ⟨x, List.mem_cons_self x xs, hl⟩
    | some p =>
      obtain ⟨e, lanes⟩ := p
      have hstep : noteStep bpm acc x
          = some { acc with
              next := acc.next + 1,
              out := { acc.out with
                spawnedNotes := acc.out.spawnedNotes ++
                  [⟨acc.next, e, (x.inner.lane : ℚ) / (lanes : ℚ), 1 / (lanes : ℚ),
                    position_for_time bpm x.time⟩] } } := by
        rw [noteStep, hl]
      rw [hstep]
      rw [ih]
      constructor
      · rintro ⟨ev, hev, hnone⟩
        refine ⟨ev, List.mem_cons_of_mem x hev, ?_⟩
        simpa using hnone
      · rintro ⟨ev, hev, hnone⟩
        rcases List.mem_cons.mp hev with rfl | hev'
        · rw [hl] at hnone; cases hnone
        · exact ⟨ev, hev', by simpa using hnone⟩

/-- The abort condition of one scheduler tick as the code implements it:
while processing the due laser events in order, a duplicate `Enter`, an
unmatched `Leave`, or a `LineTo` is hit; or all laser events process and a
due note references a laser id absent from the live map. -/
def fatalTickCondition (s : PlaySettings) (chart : Chart) (absTime : ℚ)
    (next : ℕ) (st : ChartState) : Prop :=
  (∃ pre ev post, dueLaserEvents chart st (absTime - s.base_time) = pre ++ ev :: post ∧
    ∃ acc, pre.foldlM laserStep (⟨st.lasers, next, emptySchedOut⟩ : SchedAcc) = some acc ∧
      badLaserEvent acc.lasers ev)
  ∨ (∃ acc, (dueLaserEvents chart st (absTime - s.base_time)).foldlM laserStep
        (⟨st.lasers, next, emptySchedOut⟩ : SchedAcc) = some acc ∧
      ∃ ev ∈ dueNoteEvents chart s st (absTime - s.base_time),
        lookupLaser acc.lasers ev.inner.laser = none)

/-- The abort condition asserted by the claim: only the three chart-invariant
violations (duplicate `Enter`, unmatched `Leave`, unknown note laser id). -/
def claimedTickCondition (s : PlaySettings) (chart : Chart) (absTime : ℚ)
    (next : ℕ) (st : ChartState) : Prop :=
  (∃ pre ev post, dueLaserEvents chart st (absTime - s.base_time) = pre ++ ev :: post ∧
    ∃ acc, pre.foldlM laserStep (⟨st.lasers, next, emptySchedOut⟩ : SchedAcc) = some acc ∧
      badLaserEventClaimed acc.lasers ev)
  ∨ (∃ acc, (dueLaserEvents chart st (absTime - s.base_time)).foldlM laserStep
        (⟨st.lasers, next, emptySchedOut⟩ : SchedAcc) = some acc ∧
      ∃ ev ∈ dueNoteEvents chart s st (absTime - s.base_time),
        lookupLaser acc.lasers ev.inner.laser = none)

/-- C8 (amended): a scheduler tick with `PlaySettings` present aborts exactly
when processing the due events hits a duplicate `Enter`, an unmatched
`Leave`, an (unimplemented) `LineTo`, or a due note whose laser id has no
live lane-group; otherwise no abort occurs on that path. -/
theorem noteSystemRun_abort_iff (s : PlaySettings) (chart : Chart) (absTime : ℚ)
    (next : ℕ) (st : ChartState) :
    noteSystemRun (some s) chart absTime next st = none
      ↔ fatalTickCondition s chart absTime next st := by
  cases hfold : (dueLaserEvents chart st (absTime - s.base_time)).foldlM laserStep
      (⟨st.lasers, next, emptySchedOut⟩ : SchedAcc) with
  | none =>
    have hrun : noteSystemRun (some s) chart absTime next st = none := by
      simp only [noteSystemRun, hfold]
    refine iff_of_true hrun (Or.inl ?_)
    obtain ⟨pre, ev, post, hsplit, acc, hpre, hev⟩ :=
      (foldlM_option_none_iff laserStep _ _).mp hfold
    exact ⟨pre, ev, post, hsplit, acc, hpre, (laserStep_none_iff acc ev).mp hev⟩
  | some acc1 =>
    cases hnfold : (dueNoteEvents chart s st (absTime - s.base_time)).foldlM
        (noteStep chart.bpm) acc1 with
    | none =>
      have hrun : noteSystemRun (some s) chart absTime next st = none := by
        simp only [noteSystemRun, hfold, hnfold]
      refine iff_of_true hrun (Or.inr ?_)
      exact ⟨acc1, hfold, (notes_foldlM_none_iff chart.bpm _ _).mp hnfold⟩
    | some acc2 =>
      have hrun : noteSystemRun (some s) chart absTime next st ≠ none := by
        simp only [noteSystemRun, hfold, hnfold]
        simp
      refine iff_of_false hrun ?_
      rintro (⟨pre, ev, post, hsplit, acc, hpre, hbad⟩ | ⟨acc, hacc, ev, hev, hnone⟩)
      · have hnone : (dueLaserEvents chart st (absTime - s.base_time)).foldlM laserStep
            (⟨st.lasers, next, emptySchedOut⟩ : SchedAcc) = none :=
          (foldlM_option_none_iff laserStep _ _).mpr
            ⟨pre, ev, post, hsplit, acc, hpre, (laserStep_none_iff acc ev).mpr hbad⟩
        rw [hfold] at hnone
        cases hnone
      · rw [hfold] at hacc
        injection hacc with h
        subst h
        have hcontra : (dueNoteEvents chart s st (absTime - s.base_time)).foldlM
            (noteStep chart.bpm) acc1 = none :=
          (notes_foldlM_none_iff chart.bpm _ _).mpr ⟨ev, hev, hnone⟩
        rw [hnfold] at hcontra
        cases hcontra

/-- C8 counterexample: a chart whose only due event is a `LineTo` (no
duplicate `Enter`, no unmatched `Leave`, no unknown note laser) still aborts
the tick, refuting "otherwise no abort occurs on that path". -/
theorem scheduler_abort_counterexample :
    noteSystemRun (some ⟨1, 0, 0, 1⟩)
        ⟨[], [⟨0, ⟨120, 0⟩⟩], [⟨0, (0, LaserCommand.lineTo 0 0)⟩], 120⟩ 1 0
        defaultChartState = none
    ∧ ¬ claimedTickCondition ⟨1, 0, 0, 1⟩
        ⟨[], [⟨0, ⟨120, 0⟩⟩], [⟨0, (0, LaserCommand.lineTo 0 0)⟩], 120⟩ 1 0
        defaultChartState := by
  have hnow : (1 : ℚ) - (⟨1, 0, 0, 1⟩ : PlaySettings).base_time = 1 := by norm_num
  have hdue : dueLaserEvents
      ⟨[], [⟨0, ⟨120, 0⟩⟩], [⟨0, (0, LaserCommand.lineTo 0 0)⟩], 120⟩
      defaultChartState 1
      = [⟨0, (0, LaserCommand.lineTo 0 0)⟩] := rfl
  constructor
  · simp only [noteSystemRun, hnow, hdue, foldlM_option_cons]
    rfl
  · rintro (⟨pre, ev, post, hsplit, acc, hpre, hbad⟩ | ⟨acc, hacc, ev, hev, hnone⟩)
    · rw [hnow, hdue] at hsplit
      cases pre with
      | nil =>
        simp only [List.nil_append] at hsplit
        injection hsplit with hev htail
        subst hev
        rcases hbad with ⟨y, lanes, color, habs, -⟩ | ⟨habs, -⟩ <;> cases habs
      | cons z pre' =>
        rw [List.cons_append] at hsplit
        injection hsplit with hz htail
        exact absurd htail (by simp)
    · rw [hnow, hdue, foldlM_option_cons] at hacc
      exact absurd hacc (by simp [laserStep])

/-- Judgement windows (`judge.rs` lines 23-25). -/
def PERFECT_WINDOW : ℚ := 4/100

def NEAR_WINDOW : ℚ := 8/100

def EARLY_MISS_WINDOW : ℚ := 15/100

/-- A live, unjudged note as the judgement engine sees it: its entity id, its
chart time (`laser::Note.time` as read in `judge.rs`), and its on-screen 2D
position (the transformed point the engine computes from the `Transform`). -/
structure LiveNote where
  id : ℕ
  time : ℚ
  pos : ℚ × ℚ
deriving Repr, DecidableEq

/-- A judgement verdict: the retired note's entity id, the displayed text,
and the feedback position. -/
structure Verdict where
  noteId : ℕ
  text : String
  pos : ℚ × ℚ
deriving Repr, DecidableEq

/-- Grade assignment on the timing difference (`judge.rs` lines 163-170).
Rust `Range::contains` is lower-inclusive and upper-exclusive. -/
def gradeText (diff : ℚ) : String :=
  if -PERFECT_WINDOW ≤ diff ∧ diff < PERFECT_WINDOW then "PERFECT"
  else if -NEAR_WINDOW ≤ diff ∧ diff < NEAR_WINDOW then "NEAR"
  else "MISS"

/-- The anisotropic squared distance (`judge.rs` lines 148-152): the
difference vector scaled by `Matrix3::new_nonuniform_scaling(&(1.0, 0.3))`,
then `norm_squared`. The `0.3` weight falls on the second component. -/
def normSq (input notePos : ℚ × ℚ) : ℚ :=
  (1 * (input.1 - notePos.1))^2 + ((3/10) * (input.2 - notePos.2))^2

/-- Candidate filtering (`judge.rs` lines 136-155): keep live notes whose
`diff = note.time - rel` lies in `[-NEAR_WINDOW, EARLY_MISS_WINDOW)`, pair
each with its metric, and keep those with metric `≤ norm_threshold`. -/
def candidates (thresh rel : ℚ) (inputPos : ℚ × ℚ) (notes : List LiveNote) :
    List (LiveNote × ℚ) :=
  ((notes.filter fun n =>
      decide (-NEAR_WINDOW ≤ n.time - rel) && decide (n.time - rel < EARLY_MISS_WINDOW)).map
    fun n => (n, normSq inputPos n.pos)).filter
    fun c => decide (c.2 ≤ thresh)

/-- The `min_by` comparator (`judge.rs` lines 156-161): compare metrics,
then compare the signed diffs (`lhs_time`). -/
def selCmp (rel : ℚ) (a b : LiveNote × ℚ) : Ordering :=
  (compare a.2 b.2).then (compare (a.1.time - rel) (b.1.time - rel))

/-- `Iterator::min_by`: a left fold that keeps the earlier element unless a
strictly smaller one appears (ties keep the first). -/
def minByGo {α : Type} (cmp : α → α → Ordering) (best : α) : List α → α
  | [] => best
  | x :: xs => if cmp best x = Ordering.gt then minByGo cmp x xs else minByGo cmp best xs

def minBy {α : Type} (cmp : α → α → Ordering) : List α → Option α
  | [] => none
  | x :: xs => some (minByGo cmp x xs)

/-- Handling of one mapped key press (`judge.rs` lines 136-218): select the
best candidate; if one exists, emit a verdict with its grade and position and
call `entities.delete` on the note. The first component shows the eventual
effect of that delete; in specs the deletion is deferred to `world.maintain`
at the end of the tick, so later presses in the same tick still join the
note — the deferred-deletion model below (`keyVerdict`, `judgeTickDeferred`)
captures that. For a single press the two agree. -/
def processKey (thresh rel : ℚ) (inputPos : ℚ × ℚ) (notes : List LiveNote) :
    List LiveNote × Option Verdict :=
  match minBy (selCmp rel) (candidates thresh rel inputPos notes) with
  | none => (notes, none)
  | some c =>
    (notes.filter fun m => !(m.id == c.1.id),
     some ⟨c.1.id, gradeText (c.1.time - rel), c.1.pos⟩)

/-- The key presses drained from the event channel in one tick, processed in
arrival order against the evolving live set. -/
def processKeys (thresh rel : ℚ) : List (ℚ × ℚ) → List LiveNote → List LiveNote × List Verdict
  | [], notes => (notes, [])
  | pos :: rest, notes =>
    match processKey thresh rel pos notes with
    | (notes', none) => processKeys thresh rel rest notes'
    | (notes', some v) =>
      ((processKeys thresh rel rest notes').1, v :: (processKeys thresh rel rest notes').2)

/-- The per-tick timeout pass (`judge.rs` lines 230-291): every live note
with `note.time + NEAR_WINDOW < rel` is force-retired with a `MISS` verdict
at its position. -/
def timeoutPass (rel : ℚ) (notes : List LiveNote) : List LiveNote × List Verdict :=
  (notes.filter fun n => !(decide (n.time + NEAR_WINDOW < rel)),
   (notes.filter fun n => decide (n.time + NEAR_WINDOW < rel)).map
     fun n => ⟨n.id, "MISS", n.pos⟩)

/-- Scancode lookup (`judge.rs` lines 129-135): `binary_search_by_key` on
the key-sorted mapping, modelled as association lookup; an unmapped key
yields `none` and the event is ignored. -/
def resolveKey (mapping : List (ℕ × ℚ × ℚ)) (sc : ℕ) : Option (ℚ × ℚ) :=
  (mapping.find? fun e => e.1 == sc).map fun e => e.2

/-- One tick of `JudgeSystem::run` (`judge.rs` lines 89-292): with
`PlaySettings` absent both the input path and the timeout path are skipped;
otherwise `rel = absolute_time - base_time + offset`, mapped key presses are
processed in order, then the timeout pass runs. (The UI-animation cleanup
loop touches only judgement-text entities and is not modelled. This variant
applies each press's deletion immediately — valid for at most one press per
tick; `judgeTickDeferred` below models specs' deferred deletion.) -/
def judgeTick (mapping : List (ℕ × ℚ × ℚ)) (settings : Option PlaySettings)
    (absTime : ℚ) (keys : List ℕ) (notes : List LiveNote) :
    List LiveNote × List Verdict :=
  match settings with
  | none => (notes, [])
  | some s =>
    let rel := absTime - s.base_time + s.offset
    let kr := processKeys s.norm_threshold rel (keys.filterMap (resolveKey mapping)) notes
    let tr := timeoutPass rel kr.1
    (tr.1, kr.2 ++ tr.2)

/-- The verdict of one mapped key press (`judge.rs` lines 136-218) under
specs' deferred entity deletion: `entities.delete` takes effect only at the
end-of-tick `world.maintain`, so every press in a tick joins the same
tick-start live set; the press's only immediate observable effect is its
verdict. -/
def keyVerdict (thresh rel : ℚ) (inputPos : ℚ × ℚ) (notes : List LiveNote) :
    Option Verdict :=
  (processKey thresh rel inputPos notes).2

/-- The input-path verdicts of one active tick under deferred deletion:
every mapped key press is judged against the same tick-start live set
(deleted entities remain joinable until `world.maintain`). -/
def tickInputVerdicts (mapping : List (ℕ × ℚ × ℚ)) (s : PlaySettings)
    (absTime : ℚ) (keys : List ℕ) (notes : List LiveNote) : List Verdict :=
  (keys.filterMap (resolveKey mapping)).filterMap
    fun pos => keyVerdict s.norm_threshold (absTime - s.base_time + s.offset) pos notes

/-- The timeout-pass verdicts of one active tick (`judge.rs` lines
230-291), joining the full tick-start live set (input-path deletions are
still pending at this point). -/
def tickMissVerdicts (s : PlaySettings) (absTime : ℚ) (notes : List LiveNote) :
    List Verdict :=
  (notes.filter fun n =>
      decide (n.time + NEAR_WINDOW < absTime - s.base_time + s.offset)).map
    fun n => (⟨n.id, "MISS", n.pos⟩ : Verdict)

/-- One tick of `JudgeSystem::run` under specs' deferred deletion semantics:
with `PlaySettings` present, the input path and the timeout pass both join
the same tick-start live set, and the accumulated `entities.delete` calls
take effect only at the end-of-tick `world.maintain`, which removes every
note named by one of the tick's verdicts. -/
def judgeTickDeferred (mapping : List (ℕ × ℚ × ℚ)) (settings : Option PlaySettings)
    (absTime : ℚ) (keys : List ℕ) (notes : List LiveNote) :
    List LiveNote × List Verdict :=
  match settings with
  | none => (notes, [])
  | some s =>
    let vs := tickInputVerdicts mapping s absTime keys notes
      ++ tickMissVerdicts s absTime notes
    (notes.filter fun n => !(vs.any fun v => v.noteId == n.id), vs)

/-- The inputs one simulation tick presents to the judgement engine. -/
structure JudgeTick where
  settings : Option PlaySettings
  absTime : ℚ
  keys : List ℕ
deriving Repr, DecidableEq

/-- A run of consecutive judgement ticks under deferred deletion, with
`world.maintain` applying each tick's deletions between ticks, accumulating
verdicts. -/
def judgeRunDeferred (mapping : List (ℕ × ℚ × ℚ)) :
    List JudgeTick → List LiveNote → List LiveNote × List Verdict
  | [], notes => (notes, [])
  | t :: ts, notes =>
    ((judgeRunDeferred mapping ts
        (judgeTickDeferred mapping t.settings t.absTime t.keys notes).1).1,
     (judgeTickDeferred mapping t.settings t.absTime t.keys notes).2
       ++ (judgeRunDeferred mapping ts
            (judgeTickDeferred mapping t.settings t.absTime t.keys notes).1).2)

/-- `ScancodeRow` (`judge.rs`). -/
structure ScancodeRow where
  offset : ℚ
  keys : List ℕ
deriving Repr, DecidableEq

/-- `ScancodeMap` (`judge.rs`). The `width` field is not read by
`into_mapping` (it uses each row's key count). -/
structure ScancodeMap where
  width : ℚ
  rows : List ScancodeRow
deriving Repr, DecidableEq

/-- The lexicographic key order of `sort_unstable_by(partial_cmp)` on
`(ScanCode, (f32, f32))` tuples. -/
def mappingLE (a b : ℕ × ℚ × ℚ) : Bool :=
  decide (a.1 < b.1 ∨ (a.1 = b.1 ∧ (a.2.1 < b.2.1 ∨ (a.2.1 = b.2.1 ∧ a.2.2 ≤ b.2.2))))

/-- `ScancodeMap::into_mapping` (`judge.rs` lines 306-325): key at row `i`,
index `j` is assigned the pair `(i / row_count, (offset + j) / row_width)`
(first the row coordinate, then the within-row coordinate), and the table is
sorted by the tuple order for binary search. -/
def into_mapping (m : ScancodeMap) : List (ℕ × ℚ × ℚ) :=
  ((m.rows.enum.map fun ir =>
      ir.2.keys.enum.map fun jk =>
        (jk.2, ((ir.1 : ℚ) / (m.rows.length : ℚ),
                (ir.2.offset + (jk.1 : ℚ)) / (ir.2.keys.length : ℚ)))).flatten).mergeSort
    mappingLE

/-- Non-strict lexicographic order induced by the `min_by` comparator:
metric first, then signed diff. -/
def selLE (rel : ℚ) (a b : LiveNote × ℚ) : Prop :=
  a.2 < b.2 ∨ (a.2 = b.2 ∧ a.1.time - rel ≤ b.1.time - rel)

/-- Strict version of `selLE`. -/
def selLT (rel : ℚ) (a b : LiveNote × ℚ) : Prop :=
  a.2 < b.2 ∨ (a.2 = b.2 ∧ a.1.time - rel < b.1.time - rel)

theorem selCmp_eq_gt_iff (rel : ℚ) (a b : LiveNote × ℚ) :
    selCmp rel a b = Ordering.gt ↔ selLT rel b a := by
  unfold selCmp selLT
  rcases lt_trichotomy a.2 b.2 with h | h | h
  · rw [compare_lt_iff_lt.mpr h]
    simp only [Ordering.then]
    constructor
    · intro habs; exact Ordering.noConfusion habs
    · rintro (h' | ⟨h', -⟩)
      · exact absurd h' (not_lt.mpr (le_of_lt h))
      · exact absurd h (by rw [h']; exact lt_irrefl _)
  · rw [compare_eq_iff_eq.mpr h]
    simp only [Ordering.then]
    rw [compare_gt_iff_gt]
    constructor
    · intro h'; exact Or.inr ⟨h.symm, h'⟩
    · rintro (h' | ⟨-, h'⟩)
      · exact absurd h' (by rw [h]; exact lt_irrefl _)
      · exact h'
  · rw [compare_gt_iff_gt.mpr h]
    simp only [Ordering.then]
    exact iff_of_true trivial (Or.inl h)

theorem selCmp_ne_gt_iff (rel : ℚ) (a b : LiveNote × ℚ) :
    ¬ selCmp rel a b = Ordering.gt ↔ selLE rel a b := by
  rw [selCmp_eq_gt_iff]
  unfold selLT selLE
  constructor
  · intro h
    push_neg at h
    obtain ⟨h1, h2⟩ := h
    rcases eq_or_lt_of_le h1 with heq | hlt
    · exact Or.inr ⟨heq, h2 heq.symm⟩
    · exact Or.inl hlt
  · rintro (h | ⟨heq, hle⟩) (h' | ⟨h'eq, h'lt⟩) <;> linarith

theorem selLE_refl (rel : ℚ) (a : LiveNote × ℚ) : selLE rel a a :=
  Or.inr ⟨rfl, le_rfl⟩

theorem selLE_trans (rel : ℚ) {a b c : LiveNote × ℚ}
    (h1 : selLE rel a b) (h2 : selLE rel b c) : selLE rel a c := by
  rcases h1 with h1 | ⟨h1e, h1d⟩ <;> rcases h2 with h2 | ⟨h2e, h2d⟩
  · exact Or.inl (lt_trans h1 h2)
  · exact Or.inl (lt_of_lt_of_eq h1 h2e)
  · exact Or.inl (lt_of_eq_of_lt h1e h2)
  · exact Or.inr ⟨h1e.trans h2e, le_trans h1d h2d⟩

theorem selLT_imp_selLE (rel : ℚ) {a b : LiveNote × ℚ} (h : selLT rel a b) :
    selLE rel a b := by
  rcases h with h | ⟨he, hl⟩
  · exact Or.inl h
  · exact Or.inr ⟨he, le_of_lt hl⟩

theorem minByGo_spec (rel : ℚ) : ∀ (l : List (LiveNote × ℚ)) (best : LiveNote × ℚ),
    (minByGo (selCmp rel) best l = best ∨ minByGo (selCmp rel) best l ∈ l)
    ∧ selLE rel (minByGo (selCmp rel) best l) best
    ∧ ∀ c ∈ l, selLE rel (minByGo (selCmp rel) best l) c := by
  intro l
  induction l with
  | nil =>
    intro best
    exact ⟨Or.inl rfl, selLE_refl rel best, by simp⟩
  | cons x xs ih =>
    intro best
    by_cases h : selCmp rel best x = Ordering.gt
    · have hlt : selLT rel x best := (selCmp_eq_gt_iff rel best x).mp h
      obtain ⟨hmem, hbest, hall⟩ := ih x
      rw [show minByGo (selCmp rel) best (x :: xs) = minByGo (selCmp rel) x xs from by
        simp [minByGo, h]]
      refine ⟨Or.inr ?_, ?_, ?_⟩
      · rcases hmem with he | hm
        · rw [he]; exact List.mem_cons_self x xs
        · exact List.mem_cons_of_mem x hm
      · exact selLE_trans rel hbest (selLT_imp_selLE rel hlt)
      · intro c hc
        rcases List.mem_cons.mp hc with rfl | hc'
        · exact hbest
        · exact hall c hc'
    · have hle : selLE rel best x := (selCmp_ne_gt_iff rel best x).mp h
      obtain ⟨hmem, hbest, hall⟩ := ih best
      rw [show minByGo (selCmp rel) best (x :: xs) = minByGo (selCmp rel) best xs from by
        simp [minByGo, h]]
      refine ⟨?_, hbest, ?_⟩
      · rcases hmem with he | hm
        · exact Or.inl he
        · exact Or.inr (List.mem_cons_of_mem x hm)
      · intro c hc
        rcases List.mem_cons.mp hc with rfl | hc'
        · exact selLE_trans rel hbest hle
        · exact hall c hc'

theorem minBy_sel (rel : ℚ) (l : List (LiveNote × ℚ)) (c : LiveNote × ℚ)
    (h : minBy (selCmp rel) l = some c) :
    c ∈ l ∧ ∀ d ∈ l, selLE rel c d := by
  cases l with
  | nil => exact absurd h (by simp [minBy])
  | cons x xs =>
    rw [minBy] at h
    injection h with h
    obtain ⟨hmem, hbest, hall⟩ := minByGo_spec rel xs x
    rw [h] at hmem hbest hall
    constructor
    · rcases hmem with he | hm
      · rw [he]; exact List.mem_cons_self x xs
      · exact List.mem_cons_of_mem x hm
    · intro d hd
      rcases List.mem_cons.mp hd with rfl | hd'
      · exact hbest
      · exact hall d hd'

theorem mem_candidates_iff (thresh rel : ℚ) (pos : ℚ × ℚ) (notes : List LiveNote)
    (c : LiveNote × ℚ) :
    c ∈ candidates thresh rel pos notes ↔
      c.1 ∈ notes ∧ c.2 = normSq pos c.1.pos
        ∧ -NEAR_WINDOW ≤ c.1.time - rel ∧ c.1.time - rel < EARLY_MISS_WINDOW
        ∧ c.2 ≤ thresh := by
  obtain ⟨n, q⟩ := c
  unfold candidates
  rw [List.mem_filter, List.mem_map]
  simp only [decide_eq_true_eq]
  constructor
  · rintro ⟨⟨m, hm, heq⟩, hth⟩
    rw [List.mem_filter] at hm
    obtain ⟨hmem, hwin⟩ := hm
    simp only [Bool.and_eq_true, decide_eq_true_eq] at hwin
    injection heq with h1 h2
    subst h1
    subst h2
    exact ⟨hmem, rfl, hwin.1, hwin.2, hth⟩
  · rintro ⟨hmem, hq, hw1, hw2, hth⟩
    refine ⟨⟨n, ?_, ?_⟩, hth⟩
    · rw [List.mem_filter]
      refine ⟨hmem, ?_⟩
      simp only [Bool.and_eq_true, decide_eq_true_eq]
      exact ⟨hw1, hw2⟩
    · subst hq
      rfl

/-- C2 (amended): on a mapped key press with `PlaySettings` present, the
engine considers exactly the live notes with `diff = note.time - rel` in
`[-0.08, 0.15)` and metric at most `norm_threshold`, and selects a candidate
minimizing the metric, breaking metric ties by the smaller signed diff (not
by `|diff|`); exactly that one note is judged and retired. -/
theorem judge_selection_correct (thresh rel : ℚ) (inputPos : ℚ × ℚ)
    (notes : List LiveNote) (c : LiveNote × ℚ)
    (h : minBy (selCmp rel) (candidates thresh rel inputPos notes) = some c) :
    (c.1 ∈ notes ∧ c.2 = normSq inputPos c.1.pos
      ∧ -NEAR_WINDOW ≤ c.1.time - rel ∧ c.1.time - rel < EARLY_MISS_WINDOW
      ∧ c.2 ≤ thresh)
    ∧ (∀ m ∈ notes, -NEAR_WINDOW ≤ m.time - rel → m.time - rel < EARLY_MISS_WINDOW →
        normSq inputPos m.pos ≤ thresh →
        normSq inputPos c.1.pos < normSq inputPos m.pos
          ∨ (normSq inputPos c.1.pos = normSq inputPos m.pos
              ∧ c.1.time - rel ≤ m.time - rel))
    ∧ processKey thresh rel inputPos notes
        = (notes.filter fun m => !(m.id == c.1.id),
           some ⟨c.1.id, gradeText (c.1.time - rel), c.1.pos⟩) := by
  obtain ⟨hmem, hmin⟩ := minBy_sel rel _ c h
  have hc := (mem_candidates_iff thresh rel inputPos notes c).mp hmem
  refine ⟨hc, ?_, ?_⟩
  · intro m hm hw1 hw2 hth
    have hmc : (m, normSq inputPos m.pos) ∈ candidates thresh rel inputPos notes :=
      (mem_candidates_iff thresh rel inputPos notes (m, normSq inputPos m.pos)).mpr
        ⟨hm, rfl, hw1, hw2, hth⟩
    rcases hmin _ hmc with h' | ⟨h'e, h'd⟩
    · left
      rw [← hc.2.1]
      exact h'
    · right
      exact ⟨by rw [← hc.2.1]; exact h'e, h'd⟩
  · unfold processKey
    rw [h]

theorem judge_selection_correct_witness :
    minBy (selCmp 1) (candidates 1 1 (0, 0) [⟨0, 1, (0, 0)⟩])
        = some ((⟨0, 1, (0, 0)⟩ : LiveNote), 0)
    ∧ (processKey 1 1 (0, 0) [⟨0, 1, (0, 0)⟩]).2 = some ⟨0, "PERFECT", (0, 0)⟩ := by
  have hmin : minBy (selCmp 1) (candidates 1 1 (0, 0) [⟨0, 1, (0, 0)⟩])
      = some ((⟨0, 1, (0, 0)⟩ : LiveNote), 0) := by
    norm_num [candidates, normSq, NEAR_WINDOW, EARLY_MISS_WINDOW, minBy, minByGo,
      List.filter_cons]
  have h := (judge_selection_correct 1 1 (0, 0) [⟨0, 1, (0, 0)⟩]
      ((⟨0, 1, (0, 0)⟩ : LiveNote), 0) hmin).2.2
  refine ⟨hmin, ?_⟩
  rw [h]
  norm_num [gradeText, PERFECT_WINDOW]

/-- C2 counterexample: two eligible notes share metric 0 under the same
input; their diffs are `-1/20` and `1/100`. The code selects the smaller
signed diff (note id 0, the earlier note), although note id 1 is closer to
perfect timing (`|1/100| < |-1/20|`), refuting the `|diff|` tie-break. -/
theorem judge_tiebreak_counterexample :
    processKey 1 1 (0, 0) [⟨0, 19/20, (0, 0)⟩, ⟨1, 101/100, (0, 0)⟩]
        = ([⟨1, 101/100, (0, 0)⟩], some ⟨0, "NEAR", (0, 0)⟩)
    ∧ normSq (0, 0) ((0 : ℚ), (0 : ℚ)) = 0
    ∧ (-NEAR_WINDOW ≤ (19/20 : ℚ) - 1 ∧ (19/20 : ℚ) - 1 < EARLY_MISS_WINDOW)
    ∧ (-NEAR_WINDOW ≤ (101/100 : ℚ) - 1 ∧ (101/100 : ℚ) - 1 < EARLY_MISS_WINDOW)
    ∧ |(101/100 : ℚ) - 1| < |(19/20 : ℚ) - 1| := by
  have habs : |(101/100 : ℚ) - 1| < |(19/20 : ℚ) - 1| := by
    rw [abs_of_nonneg (by norm_num : (0:ℚ) ≤ 101/100 - 1),
      abs_of_nonpos (by norm_num : (19/20 : ℚ) - 1 ≤ 0)]
    norm_num
  have hc : candidates 1 1 (0, 0) [⟨0, 19/20, (0, 0)⟩, ⟨1, 101/100, (0, 0)⟩]
      = [((⟨0, 19/20, (0, 0)⟩ : LiveNote), 0), ((⟨1, 101/100, (0, 0)⟩ : LiveNote), 0)] := by
    norm_num [candidates, normSq, NEAR_WINDOW, EARLY_MISS_WINDOW, List.filter_cons]
  have hm : minBy (selCmp 1)
      [((⟨0, 19/20, (0, 0)⟩ : LiveNote), 0), ((⟨1, 101/100, (0, 0)⟩ : LiveNote), 0)]
      = some ((⟨0, 19/20, (0, 0)⟩ : LiveNote), 0) := by
    have c1 : compare (0:ℚ) 0 = Ordering.eq := compare_eq_iff_eq.mpr rfl
    have c2 : compare ((19:ℚ)/20 - 1) ((101:ℚ)/100 - 1) = Ordering.lt :=
      compare_lt_iff_lt.mpr (by norm_num)
    simp only [minBy, minByGo, selCmp, c1, c2, Ordering.then]
    simp
  refine ⟨?_, by norm_num [normSq], by norm_num [NEAR_WINDOW, EARLY_MISS_WINDOW],
    by norm_num [NEAR_WINDOW, EARLY_MISS_WINDOW], habs⟩
  unfold processKey
  rw [hc, hm]
  norm_num [gradeText, PERFECT_WINDOW, NEAR_WINDOW, List.filter_cons]

/-- The grading rule asserted by the claim: symmetric intervals with
exclusive boundaries on both sides of zero. -/
def gradeClaimedSymmetric (diff : ℚ) : String :=
  if |diff| < PERFECT_WINDOW then "PERFECT"
  else if |diff| < NEAR_WINDOW then "NEAR"
  else "MISS"

/-- C3 counterexample: at `diff = -0.04` the code grades PERFECT (Rust's
`Range::contains` includes the lower bound), while the claimed symmetric
exclusive-boundary rule grades NEAR. -/
theorem grade_boundary_counterexample :
    gradeText (-(4/100)) = "PERFECT"
    ∧ gradeClaimedSymmetric (-(4/100)) = "NEAR"
    ∧ ("PERFECT" : String) ≠ "NEAR" := by
  refine ⟨?_, ?_, by decide⟩
  · norm_num [gradeText, PERFECT_WINDOW, NEAR_WINDOW]
  · norm_num [gradeClaimedSymmetric, abs_lt, PERFECT_WINDOW, NEAR_WINDOW]

/-- C3 (amended): the grade intervals are lower-inclusive and
upper-exclusive: PERFECT exactly on `[-0.04, 0.04)`, NEAR exactly on
`[-0.08, 0.08)` outside the perfect window (so `diff = 0.04` is NEAR but
`diff = -0.04` is PERFECT), and MISS otherwise. -/
theorem gradeText_characterization (d : ℚ) :
    (gradeText d = "PERFECT" ↔ -PERFECT_WINDOW ≤ d ∧ d < PERFECT_WINDOW)
    ∧ (gradeText d = "NEAR" ↔ ((-NEAR_WINDOW ≤ d ∧ d < NEAR_WINDOW)
        ∧ ¬(-PERFECT_WINDOW ≤ d ∧ d < PERFECT_WINDOW)))
    ∧ (gradeText d = "MISS" ↔ ¬(-NEAR_WINDOW ≤ d ∧ d < NEAR_WINDOW)) := by
  have hPN : ∀ x : ℚ, -PERFECT_WINDOW ≤ x ∧ x < PERFECT_WINDOW →
      -NEAR_WINDOW ≤ x ∧ x < NEAR_WINDOW := by
    intro x hx
    unfold PERFECT_WINDOW at hx
    unfold NEAR_WINDOW
    constructor <;> linarith [hx.1, hx.2]
  unfold gradeText
  by_cases h1 : -PERFECT_WINDOW ≤ d ∧ d < PERFECT_WINDOW
  · rw [if_pos h1]
    exact ⟨iff_of_true rfl h1,
      iff_of_false (by decide) (fun hc => hc.2 h1),
      iff_of_false (by decide) (fun hc => hc (hPN d h1))⟩
  · rw [if_neg h1]
    by_cases h2 : -NEAR_WINDOW ≤ d ∧ d < NEAR_WINDOW
    · rw [if_pos h2]
      exact ⟨iff_of_false (by decide) (fun hc => h1 hc),
        iff_of_true rfl ⟨h2, h1⟩,
        iff_of_false (by decide) (fun hc => hc h2)⟩
    · rw [if_neg h2]
      exact ⟨iff_of_false (by decide) (fun hc => h2 (hPN d hc)),
        iff_of_false (by decide) (fun hc => h2 hc.1),
        iff_of_true rfl h2⟩

/-- C6 (amended): a live note whose diff is exactly `NEAR_WINDOW` (0.08 s)
lies inside the input-eligibility window `[-0.08, 0.15)`; with a passing
spatial metric it is selected by a key press and judged MISS — it is not
excluded from input judgement. -/
theorem near_boundary_eligible (thresh rel : ℚ) (pos : ℚ × ℚ) (n : LiveNote)
    (hdiff : n.time - rel = NEAR_WINDOW) (hnorm : normSq pos n.pos ≤ thresh) :
    (n, normSq pos n.pos) ∈ candidates thresh rel pos [n]
    ∧ processKey thresh rel pos [n] = ([], some ⟨n.id, "MISS", n.pos⟩) := by
  have hw1 : -NEAR_WINDOW ≤ n.time - rel := by
    rw [hdiff]; norm_num [NEAR_WINDOW]
  have hw2 : n.time - rel < EARLY_MISS_WINDOW := by
    rw [hdiff]; norm_num [NEAR_WINDOW, EARLY_MISS_WINDOW]
  have hmemc : (n, normSq pos n.pos) ∈ candidates thresh rel pos [n] :=
    (mem_candidates_iff thresh rel pos [n] (n, normSq pos n.pos)).mpr
      ⟨List.mem_cons_self n [], rfl, hw1, hw2, hnorm⟩
  refine ⟨hmemc, ?_⟩
  have hb1 : (decide (-NEAR_WINDOW ≤ n.time - rel)
      && decide (n.time - rel < EARLY_MISS_WINDOW)) = true := by
    simp only [Bool.and_eq_true, decide_eq_true_eq]
    exact ⟨hw1, hw2⟩
  have hb2 : decide (normSq pos n.pos ≤ thresh) = true := by
    simp only [decide_eq_true_eq]
    exact hnorm
  have hcand : candidates thresh rel pos [n] = [(n, normSq pos n.pos)] := by
    unfold candidates
    rw [List.filter_cons, if_pos hb1]
    simp only [List.filter_nil, List.map_cons, List.map_nil]
    rw [List.filter_cons, if_pos hb2]
    simp only [List.filter_nil]
  unfold processKey
  rw [hcand]
  have hgrade : gradeText (n.time - rel) = "MISS" := by
    rw [hdiff]
    norm_num [gradeText, PERFECT_WINDOW, NEAR_WINDOW]
  simp [minBy, minByGo, hgrade]

theorem near_boundary_eligible_witness :
    ((⟨0, 27/25, (0, 0)⟩ : LiveNote).time - 1 = NEAR_WINDOW)
    ∧ normSq (0, 0) (⟨0, 27/25, (0, 0)⟩ : LiveNote).pos ≤ 1
    ∧ ((⟨0, 27/25, (0, 0)⟩ : LiveNote), normSq (0, 0) (0, 0))
        ∈ candidates 1 1 (0, 0) [⟨0, 27/25, (0, 0)⟩]
    ∧ processKey 1 1 (0, 0) [⟨0, 27/25, (0, 0)⟩] = ([], some ⟨0, "MISS", (0, 0)⟩) := by
  have h1 : ((⟨0, 27/25, (0, 0)⟩ : LiveNote).time - 1 = NEAR_WINDOW) := by
    norm_num [NEAR_WINDOW]
  have h2 : normSq (0, 0) (⟨0, 27/25, (0, 0)⟩ : LiveNote).pos ≤ 1 := by
    norm_num [normSq]
  have h := near_boundary_eligible 1 1 (0, 0) ⟨0, 27/25, (0, 0)⟩ h1 h2
  exact ⟨h1, h2, h.1, h.2⟩

/-- C6 counterexample: a key press on a note with diff exactly 0.08 s does
produce a verdict (a MISS), refuting "no key press produces any verdict for
such a note". -/
theorem near_boundary_counterexample :
    ((27/25 : ℚ) - 1 = NEAR_WINDOW)
    ∧ (processKey 1 1 (0, 0) [⟨0, 27/25, (0, 0)⟩]).2 = some ⟨0, "MISS", (0, 0)⟩ := by
  constructor
  · norm_num [NEAR_WINDOW]
  · norm_num [processKey, candidates, normSq, NEAR_WINDOW, EARLY_MISS_WINDOW,
      minBy, minByGo, gradeText, PERFECT_WINDOW, List.filter_cons]

theorem get?_mem_enumFrom {α : Type} :
    ∀ (l : List α) (n i : ℕ) (x : α), l.get? i = some x → (n + i, x) ∈ l.enumFrom n := by
  intro l
  induction l with
  | nil =>
    intro n i x h
    exact absurd h (by simp)
  | cons a as ih =>
    intro n i x h
    cases i with
    | zero =>
      rw [List.get?_cons_zero] at h
      injection h with h
      subst h
      simp [List.enumFrom]
    | succ j =>
      rw [List.get?_cons_succ] at h
      have hmem := ih (n + 1) j x h
      have heq : n + (j + 1) = (n + 1) + j := by omega
      rw [heq]
      simp only [List.enumFrom]
      exact List.mem_cons_of_mem _ hmem

theorem into_mapping_mem (m : ScancodeMap) (i j k : ℕ) (r : ScancodeRow)
    (hi : m.rows.get? i = some r) (hj : r.keys.get? j = some k) :
    (k, ((i : ℚ) / (m.rows.length : ℚ), (r.offset + (j : ℚ)) / (r.keys.length : ℚ)))
      ∈ into_mapping m := by
  unfold into_mapping
  rw [(List.mergeSort_perm _ mappingLE).mem_iff]
  rw [List.mem_flatten]
  have hrow : (i, r) ∈ m.rows.enum := by
    have := get?_mem_enumFrom m.rows 0 i r hi
    simpa [List.enum] using this
  have hkey : (j, k) ∈ r.keys.enum := by
    have := get?_mem_enumFrom r.keys 0 j k hj
    simpa [List.enum] using this
  refine ⟨_, List.mem_map_of_mem _ hrow, ?_⟩
  exact List.mem_map_of_mem
    (fun jk => (jk.2, ((i : ℚ) / (m.rows.length : ℚ),
      (r.offset + (jk.1 : ℚ)) / (r.keys.length : ℚ)))) hkey

/-- C10 (amended): the mapper assigns the key at row `i`, within-row index
`j` the stored pair `(i / row_count, (offset + j) / row_width)` — the row
(vertical) coordinate first, the within-row (horizontal) coordinate second —
and the metric puts its 0.3 weight on the *second* component of the
difference: `metric = (Δfirst)² + (0.3·Δsecond)²`. The 0.3 weight therefore
falls on the within-row coordinate of the stored pair, not on the row
coordinate. -/
theorem into_mapping_weights (m : ScancodeMap) (i j k : ℕ) (r : ScancodeRow)
    (hi : m.rows.get? i = some r) (hj : r.keys.get? j = some k) :
    (k, ((i : ℚ) / (m.rows.length : ℚ), (r.offset + (j : ℚ)) / (r.keys.length : ℚ)))
      ∈ into_mapping m
    ∧ ∀ input notePos : ℚ × ℚ,
        normSq input notePos
          = (input.1 - notePos.1)^2 + ((3/10) * (input.2 - notePos.2))^2 :=
  ⟨into_mapping_mem m i j k r hi hj, fun input notePos => by unfold normSq; ring⟩

theorem into_mapping_weights_witness :
    ((⟨1, [⟨0, [10]⟩, ⟨0, [11]⟩]⟩ : ScancodeMap).rows.get? 1 = some ⟨0, [11]⟩)
    ∧ ((⟨0, [11]⟩ : ScancodeRow).keys.get? 0 = some 11)
    ∧ ((11 : ℕ), ((1 : ℚ) / 2, (0 : ℚ)))
        ∈ into_mapping ⟨1, [⟨0, [10]⟩, ⟨0, [11]⟩]⟩ := by
  refine ⟨rfl, rfl, ?_⟩
  have h := (into_mapping_weights ⟨1, [⟨0, [10]⟩, ⟨0, [11]⟩]⟩ 1 0 11 ⟨0, [11]⟩ rfl rfl).1
  simpa using h

/-- The metric asserted by the claim: full weight on the horizontal
(within-row) coordinate difference, 0.3 weight on the vertical (row)
coordinate difference. -/
def claimedNormSq (rowCoord colCoord : ℚ) (notePos : ℚ × ℚ) : ℚ :=
  (colCoord - notePos.1)^2 + ((3/10) * (rowCoord - notePos.2))^2

/-- C10 counterexample: in a two-row layout, key 11 (row 1, column 0) is
stored as the pair `(1/2, 0)` — row coordinate first. Against a note at
`(0, 0)` the code's metric is `(1/2)² = 1/4` (full weight on the row-axis
difference), while the claimed metric `(Δx)² + (0.3·Δy)²` with `Δy` the
vertical (row) difference gives `(0.3·1/2)² = 9/400`. -/
theorem metric_axis_counterexample :
    ((11 : ℕ), ((1 : ℚ) / 2, (0 : ℚ)))
        ∈ into_mapping ⟨1, [⟨0, [10]⟩, ⟨0, [11]⟩]⟩
    ∧ normSq (1/2, 0) (0, 0) = 1/4
    ∧ claimedNormSq (1/2) 0 (0, 0) = 9/400
    ∧ (1/4 : ℚ) ≠ 9/400 := by
  refine ⟨?_, by norm_num [normSq], by norm_num [claimedNormSq], by norm_num⟩
  have h := into_mapping_mem ⟨1, [⟨0, [10]⟩, ⟨0, [11]⟩]⟩ 1 0 11 ⟨0, [11]⟩ rfl rfl
  simpa using h

/-- C9: while `PlaySettings` is absent, one scheduler tick returns the
`ChartState` unchanged with no spawn/despawn intents and no abort, and one
judgement tick leaves the live-note set unchanged and emits no verdicts. -/
theorem settings_absent_noop (chart : Chart) (absTime : ℚ) (next : ℕ)
    (st : ChartState) (mapping : List (ℕ × ℚ × ℚ)) (absTimeJ : ℚ) (keys : List ℕ)
    (notes : List LiveNote) :
    noteSystemRun none chart absTime next st = some (st, next, emptySchedOut)
    ∧ judgeTick mapping none absTimeJ keys notes = (notes, []) :=
  ⟨rfl, rfl⟩

/-- Number of live notes carrying entity id `x`. -/
def ncount (x : ℕ) (ns : List LiveNote) : ℕ :=
  ns.countP fun n => n.id == x

/-- Number of verdicts emitted for entity id `x`. -/
def vcount (x : ℕ) (vs : List Verdict) : ℕ :=
  vs.countP fun v => v.noteId == x

theorem countP_ext {α : Type} (p q : α → Bool) (h : ∀ a, p a = q a) :
    ∀ l : List α, l.countP p = l.countP q := by
  intro l
  induction l with
  | nil => rfl
  | cons a as ih =>
    rw [List.countP_cons, List.countP_cons, h a, ih]

theorem countP_map' {α β : Type} (p : β → Bool) (f : α → β) :
    ∀ l : List α, (l.map f).countP p = l.countP fun a => p (f a) := by
  intro l
  induction l with
  | nil => rfl
  | cons a as ih =>
    rw [List.map_cons, List.countP_cons, List.countP_cons, ih]

theorem countP_split {α : Type} (q p : α → Bool) :
    ∀ l : List α,
      l.countP q = (l.countP fun a => q a && !(p a)) + (l.countP fun a => q a && p a) := by
  intro l
  induction l with
  | nil => rfl
  | cons a as ih =>
    rw [List.countP_cons, List.countP_cons, List.countP_cons, ih]
    cases hq : q a <;> cases hp : p a <;> simp [hq, hp] <;> omega

theorem ncount_eq_one {notes : List LiveNote} {n : LiveNote}
    (hnodup : (notes.map LiveNote.id).Nodup) (hmem : n ∈ notes) :
    ncount n.id notes = 1 := by
  have hc : ncount n.id notes = (notes.map LiveNote.id).count n.id := by
    rw [ncount, List.count, countP_map' _ LiveNote.id notes]
  rw [hc]
  have h1 : n.id ∈ notes.map LiveNote.id := List.mem_map_of_mem _ hmem
  have h2 := List.nodup_iff_count_le_one.mp hnodup n.id
  have h3 : 0 < (notes.map LiveNote.id).count n.id := List.count_pos_iff.mpr h1
  omega

theorem vcount_append (x : ℕ) (a b : List Verdict) :
    vcount x (a ++ b) = vcount x a + vcount x b := by
  rw [vcount, List.countP_append]
  rfl

theorem vcount_pos_exists (x : ℕ) (vs : List Verdict) (h : 0 < vcount x vs) :
    ∃ v ∈ vs, v.noteId = x := by
  unfold vcount at h
  obtain ⟨v, hv, hb⟩ := List.countP_pos_iff.mp h
  exact ⟨v, hv, beq_iff_eq.mp hb⟩

theorem vcount_eq_zero_iff (x : ℕ) (vs : List Verdict) :
    vcount x vs = 0 ↔ ∀ v ∈ vs, ¬ v.noteId = x := by
  unfold vcount
  rw [List.countP_eq_zero]
  constructor
  · intro h v hv
    have := h v hv
    simpa using this
  · intro h v hv
    simpa using h v hv

theorem judgeTickDeferred_some (mapping : List (ℕ × ℚ × ℚ)) (s : PlaySettings)
    (absTime : ℚ) (keys : List ℕ) (notes : List LiveNote) :
    judgeTickDeferred mapping (some s) absTime keys notes
      = (notes.filter fun n =>
            !((tickInputVerdicts mapping s absTime keys notes
                ++ tickMissVerdicts s absTime notes).any fun v => v.noteId == n.id),
         tickInputVerdicts mapping s absTime keys notes
           ++ tickMissVerdicts s absTime notes) := rfl

theorem keyVerdict_spec (thresh rel : ℚ) (pos : ℚ × ℚ) (notes : List LiveNote)
    (v : Verdict) (h : keyVerdict thresh rel pos notes = some v) :
    ∃ m ∈ notes, v.noteId = m.id ∧ -NEAR_WINDOW ≤ m.time - rel := by
  unfold keyVerdict processKey at h
  cases hmb : minBy (selCmp rel) (candidates thresh rel pos notes) with
  | none =>
    simp only [hmb] at h
    exact Option.noConfusion h
  | some c =>
    simp only [hmb] at h
    obtain ⟨hmemc, -⟩ := minBy_sel rel _ c hmb
    have hc := (mem_candidates_iff thresh rel pos notes c).mp hmemc
    injection h with h
    exact ⟨c.1, hc.1, by rw [← h], hc.2.2.1⟩

theorem tickInputVerdicts_spec (mapping : List (ℕ × ℚ × ℚ)) (s : PlaySettings)
    (absTime : ℚ) (keys : List ℕ) (notes : List LiveNote) (v : Verdict)
    (hv : v ∈ tickInputVerdicts mapping s absTime keys notes) :
    ∃ m ∈ notes, v.noteId = m.id
      ∧ -NEAR_WINDOW ≤ m.time - (absTime - s.base_time + s.offset) := by
  unfold tickInputVerdicts at hv
  obtain ⟨pos, -, hkv⟩ := List.mem_filterMap.mp hv
  exact keyVerdict_spec _ _ _ _ _ hkv

theorem tickInputVerdicts_count_le (mapping : List (ℕ × ℚ × ℚ)) (s : PlaySettings)
    (absTime : ℚ) (keys : List ℕ) (notes : List LiveNote) (x : ℕ) :
    vcount x (tickInputVerdicts mapping s absTime keys notes)
      ≤ (keys.filterMap (resolveKey mapping)).length := by
  unfold tickInputVerdicts vcount
  exact le_trans (List.countP_le_length _) (List.length_filterMap_le _ _)

theorem tickMissVerdicts_count (s : PlaySettings) (absTime : ℚ)
    (notes : List LiveNote) (x : ℕ) :
    vcount x (tickMissVerdicts s absTime notes)
      = notes.countP fun n =>
          (n.id == x) && decide (n.time + NEAR_WINDOW < absTime - s.base_time + s.offset) := by
  unfold tickMissVerdicts vcount
  rw [countP_map' _ _ _, List.countP_filter]

theorem tickMissVerdicts_count_le (s : PlaySettings) (absTime : ℚ)
    (notes : List LiveNote) (x : ℕ) :
    vcount x (tickMissVerdicts s absTime notes) ≤ ncount x notes := by
  rw [tickMissVerdicts_count]
  unfold ncount
  have h := countP_split (fun n : LiveNote => n.id == x)
    (fun n => decide (n.time + NEAR_WINDOW < absTime - s.base_time + s.offset)) notes
  omega

theorem tickMissVerdicts_spec (s : PlaySettings) (absTime : ℚ)
    (notes : List LiveNote) (v : Verdict)
    (hv : v ∈ tickMissVerdicts s absTime notes) :
    ∃ m ∈ notes, v.noteId = m.id
      ∧ m.time + NEAR_WINDOW < absTime - s.base_time + s.offset := by
  unfold tickMissVerdicts at hv
  obtain ⟨m, hm, rfl⟩ := List.mem_map.mp hv
  rw [List.mem_filter] at hm
  exact ⟨m, hm.1, rfl, of_decide_eq_true hm.2⟩

theorem tickMissVerdicts_mem (s : PlaySettings) (absTime : ℚ)
    (notes : List LiveNote) (m : LiveNote) (hm : m ∈ notes)
    (hto : m.time + NEAR_WINDOW < absTime - s.base_time + s.offset) :
    (⟨m.id, "MISS", m.pos⟩ : Verdict) ∈ tickMissVerdicts s absTime notes := by
  unfold tickMissVerdicts
  exact List.mem_map_of_mem _ (List.mem_filter.mpr ⟨hm, decide_eq_true hto⟩)

theorem tickDeferred_sublist (mapping : List (ℕ × ℚ × ℚ)) (settings : Option PlaySettings)
    (absTime : ℚ) (keys : List ℕ) (notes : List LiveNote) :
    (judgeTickDeferred mapping settings absTime keys notes).1.Sublist notes := by
  cases settings with
  | none => exact List.Sublist.refl notes
  | some s =>
    rw [judgeTickDeferred_some]
    exact List.filter_sublist notes

theorem tickDeferred_mem_active (mapping : List (ℕ × ℚ × ℚ)) (s : PlaySettings)
    (absTime : ℚ) (keys : List ℕ) (notes : List LiveNote) (m : LiveNote)
    (hm : m ∈ (judgeTickDeferred mapping (some s) absTime keys notes).1) :
    m ∈ notes ∧ ¬ (m.time + NEAR_WINDOW < absTime - s.base_time + s.offset) := by
  rw [judgeTickDeferred_some, List.mem_filter] at hm
  obtain ⟨hmem, hcond⟩ := hm
  refine ⟨hmem, ?_⟩
  intro hto
  have hv := tickMissVerdicts_mem s absTime notes m hmem hto
  simp only [Bool.not_eq_true'] at hcond
  rw [List.any_eq_false] at hcond
  exact hcond _ (List.mem_append.mpr (Or.inr hv)) (by simp)

/-- Per-tick conservation under deferred deletion: with unique entity ids
and at most one mapped key press in the tick, each note id's live count
splits into the kept count plus the tick's verdict count. (The tick then
emits at most one verdict per note: the input window `diff ≥ -0.08` and the
timeout condition `diff < -0.08` are disjoint at a single `rel`, and one
press selects at most one note.) -/
theorem tickDeferred_count (mapping : List (ℕ × ℚ × ℚ)) (settings : Option PlaySettings)
    (absTime : ℚ) (keys : List ℕ) (notes : List LiveNote) (x : ℕ)
    (hnodup : (notes.map LiveNote.id).Nodup)
    (hpress : (keys.filterMap (resolveKey mapping)).length ≤ 1) :
    ncount x notes
      = ncount x (judgeTickDeferred mapping settings absTime keys notes).1
        + vcount x (judgeTickDeferred mapping settings absTime keys notes).2 := by
  cases settings with
  | none => simp [judgeTickDeferred, vcount]
  | some s =>
    rw [judgeTickDeferred_some]
    set iv := tickInputVerdicts mapping s absTime keys notes with hiv
    set mv := tickMissVerdicts s absTime notes with hmv
    by_cases hzero : vcount x (iv ++ mv) = 0
    · have hall : ∀ v ∈ iv ++ mv, ¬ v.noteId = x := (vcount_eq_zero_iff _ _).mp hzero
      have hkeep : ncount x (notes.filter fun n =>
          !((iv ++ mv).any fun v => v.noteId == n.id)) = ncount x notes := by
        unfold ncount
        rw [List.countP_filter]
        refine countP_ext _ _ ?_ notes
        intro a
        by_cases hax : a.id = x
        · have hany : ((iv ++ mv).any fun v => v.noteId == a.id) = false := by
            rw [List.any_eq_false]
            intro v hv
            simp only [beq_iff_eq, hax]
            exact hall v hv
          rw [hany]
          simp
        · have hb : (a.id == x) = false := beq_eq_false_iff_ne.mpr hax
          simp [hb]
      rw [hzero, hkeep]
      omega
    · have hpos : 0 < vcount x (iv ++ mv) := Nat.pos_of_ne_zero hzero
      obtain ⟨v, hv, hvx⟩ := vcount_pos_exists x _ hpos
      have hnx : ∃ m ∈ notes, m.id = x := by
        rcases List.mem_append.mp hv with h | h
        · obtain ⟨m, hm, hid, -⟩ :=
            tickInputVerdicts_spec mapping s absTime keys notes v h
          exact ⟨m, hm, by rw [← hid, hvx]⟩
        · obtain ⟨m, hm, hid, -⟩ := tickMissVerdicts_spec s absTime notes v h
          exact ⟨m, hm, by rw [← hid, hvx]⟩
      obtain ⟨m, hmemm, hmx⟩ := hnx
      have honen : ncount x notes = 1 := by
        rw [← hmx]
        exact ncount_eq_one hnodup hmemm
      have hvone : vcount x (iv ++ mv) = 1 := by
        have hIle : vcount x iv ≤ 1 :=
          le_trans (tickInputVerdicts_count_le mapping s absTime keys notes x) hpress
        have hMle : vcount x mv ≤ 1 := by
          have h := tickMissVerdicts_count_le s absTime notes x
          rw [← hmv] at h
          omega
        have hnot : ¬ (0 < vcount x iv ∧ 0 < vcount x mv) := by
          rintro ⟨hi, hm2⟩
          obtain ⟨vi, hvi, hvix⟩ := vcount_pos_exists x iv hi
          obtain ⟨vm, hvm, hvmx⟩ := vcount_pos_exists x mv hm2
          obtain ⟨mi, hmi, hmiid, hmiw⟩ :=
            tickInputVerdicts_spec mapping s absTime keys notes vi hvi
          obtain ⟨mm, hmm, hmmid, hmmw⟩ := tickMissVerdicts_spec s absTime notes vm hvm
          have hsame : mi = mm := by
            apply List.inj_on_of_nodup_map hnodup hmi hmm
            rw [← hmiid, ← hmmid, hvix, hvmx]
          rw [hsame] at hmiw
          linarith
        have hprod : vcount x iv = 0 ∨ vcount x mv = 0 := by
          by_contra hc
          push_neg at hc
          exact hnot ⟨Nat.pos_of_ne_zero hc.1, Nat.pos_of_ne_zero hc.2⟩
        rw [vcount_append] at hpos ⊢
        rcases hprod with h0 | h0 <;> omega
      have hkeep : ncount x (notes.filter fun n =>
          !((iv ++ mv).any fun v => v.noteId == n.id)) = 0 := by
        unfold ncount
        rw [List.countP_filter, List.countP_eq_zero]
        intro a _
        simp only [Bool.and_eq_true, beq_iff_eq, Bool.not_eq_true']
        rintro ⟨hax, hany⟩
        rw [List.any_eq_false] at hany
        exact hany v hv (by simp [hvx, hax])
      rw [hkeep, hvone, honen]

theorem runDeferred_sublist (mapping : List (ℕ × ℚ × ℚ)) :
    ∀ (ticks : List JudgeTick) (notes : List LiveNote),
      (judgeRunDeferred mapping ticks notes).1.Sublist notes := by
  intro ticks
  induction ticks with
  | nil =>
    intro notes
    exact List.Sublist.refl notes
  | cons t ts ih =>
    intro notes
    simp only [judgeRunDeferred]
    exact (ih _).trans (tickDeferred_sublist mapping t.settings t.absTime t.keys notes)

theorem runDeferred_count (mapping : List (ℕ × ℚ × ℚ)) (x : ℕ) :
    ∀ (ticks : List JudgeTick) (notes : List LiveNote),
      (notes.map LiveNote.id).Nodup →
      (∀ t ∈ ticks, (t.keys.filterMap (resolveKey mapping)).length ≤ 1) →
      ncount x notes
        = ncount x (judgeRunDeferred mapping ticks notes).1
          + vcount x (judgeRunDeferred mapping ticks notes).2 := by
  intro ticks
  induction ticks with
  | nil =>
    intro notes _ _
    simp [judgeRunDeferred, vcount]
  | cons t ts ih =>
    intro notes hnodup hone
    simp only [judgeRunDeferred]
    have h1 := tickDeferred_count mapping t.settings t.absTime t.keys notes x hnodup
      (hone t (List.mem_cons_self t ts))
    have hnodup' : (((judgeTickDeferred mapping t.settings t.absTime t.keys notes).1).map
        LiveNote.id).Nodup :=
      hnodup.sublist ((tickDeferred_sublist mapping t.settings t.absTime t.keys notes).map
        LiveNote.id)
    have h2 := ih _ hnodup' (fun t' ht' => hone t' (List.mem_cons_of_mem t ht'))
    rw [vcount_append]
    omega

theorem runDeferred_append (mapping : List (ℕ × ℚ × ℚ)) :
    ∀ (a b : List JudgeTick) (notes : List LiveNote),
      judgeRunDeferred mapping (a ++ b) notes
        = ((judgeRunDeferred mapping b (judgeRunDeferred mapping a notes).1).1,
           (judgeRunDeferred mapping a notes).2
             ++ (judgeRunDeferred mapping b (judgeRunDeferred mapping a notes).1).2) := by
  intro a
  induction a with
  | nil =>
    intro b notes
    simp [judgeRunDeferred]
  | cons t ts ih =>
    intro b notes
    rw [List.cons_append]
    simp only [judgeRunDeferred]
    rw [ih]
    rw [List.append_assoc]

/-- C4 counterexample: deferred deletion makes a judged note re-judgeable
within its tick. One live note (id 0, time 1) and two presses of the mapped
key 10 in the tick at `rel = 1`: `entities.delete` takes effect only at
`world.maintain`, so both presses join the same tick-start live set, both
select note 0, and the run emits TWO verdicts for it — although the ids are
unique, the session stays active, and a later tick lies past the note's
timeout bound — refuting "exactly one verdict, never both". -/
theorem double_judgement_counterexample :
    (([(⟨0, 1, (0, 0)⟩ : LiveNote)].map LiveNote.id).Nodup)
    ∧ ((⟨0, 1, (0, 0)⟩ : LiveNote) ∈ [(⟨0, 1, (0, 0)⟩ : LiveNote)])
    ∧ (∃ t ∈ [(⟨some ⟨1, 0, 0, 1⟩, 1, [10, 10]⟩ : JudgeTick),
          (⟨some ⟨1, 0, 0, 1⟩, 2, []⟩ : JudgeTick)], ∃ s : PlaySettings,
        t.settings = some s
        ∧ (⟨0, 1, (0, 0)⟩ : LiveNote).time + NEAR_WINDOW
            < t.absTime - s.base_time + s.offset)
    ∧ vcount 0 (judgeRunDeferred [(10, ((0 : ℚ), (0 : ℚ)))]
        [⟨some ⟨1, 0, 0, 1⟩, 1, [10, 10]⟩, ⟨some ⟨1, 0, 0, 1⟩, 2, []⟩]
        [⟨0, 1, (0, 0)⟩]).2 = 2 := by
  refine ⟨by simp, List.mem_cons_self _ _, ?_, ?_⟩
  · refine ⟨⟨some ⟨1, 0, 0, 1⟩, 2, []⟩, by simp, ⟨1, 0, 0, 1⟩, rfl, ?_⟩
    norm_num [NEAR_WINDOW]
  · norm_num [judgeRunDeferred, judgeTickDeferred, tickInputVerdicts, tickMissVerdicts,
      keyVerdict, processKey, resolveKey, candidates, normSq, minBy, minByGo, gradeText,
      PERFECT_WINDOW, NEAR_WINDOW, EARLY_MISS_WINDOW, vcount, List.filter_cons,
      List.filterMap_cons, List.find?, List.countP_cons]

/-- C4 (amended): `entities.delete` is deferred to the end-of-tick
`world.maintain`, so a judged note stays joinable for the rest of its tick
and several mapped key presses in one tick can each emit a verdict for it.
Under the restriction that at most one mapped key press is processed per
tick, every live note whose session reaches an active tick past its timeout
bound receives exactly one verdict over the run — input-driven or timeout
MISS, never both and never zero — and is absent from the final live set
(removed at the end of the tick that judged it). -/
theorem note_exactly_one_verdict_single_press (mapping : List (ℕ × ℚ × ℚ))
    (ticks : List JudgeTick) (notes₀ : List LiveNote) (n₀ : LiveNote)
    (hnodup : (notes₀.map LiveNote.id).Nodup)
    (hmem : n₀ ∈ notes₀)
    (hone : ∀ t ∈ ticks, (t.keys.filterMap (resolveKey mapping)).length ≤ 1)
    (hpast : ∃ t ∈ ticks, ∃ s, t.settings = some s
        ∧ n₀.time + NEAR_WINDOW < t.absTime - s.base_time + s.offset) :
    vcount n₀.id (judgeRunDeferred mapping ticks notes₀).2 = 1
    ∧ ncount n₀.id (judgeRunDeferred mapping ticks notes₀).1 = 0 := by
  obtain ⟨t, ht, s, hset, hrel⟩ := hpast
  obtain ⟨l₁, l₂, rfl⟩ := List.append_of_mem ht
  have honeA : ∀ t' ∈ l₁, (t'.keys.filterMap (resolveKey mapping)).length ≤ 1 :=
    fun t' ht' => hone t' (List.mem_append.mpr (Or.inl ht'))
  have honeT : (t.keys.filterMap (resolveKey mapping)).length ≤ 1 :=
    hone t (List.mem_append.mpr (Or.inr (List.mem_cons_self t l₂)))
  have honeB : ∀ t' ∈ l₂, (t'.keys.filterMap (resolveKey mapping)).length ≤ 1 :=
    fun t' ht' => hone t' (List.mem_append.mpr (Or.inr (List.mem_cons_of_mem t ht')))
  have hsubA : (judgeRunDeferred mapping l₁ notes₀).1.Sublist notes₀ :=
    runDeferred_sublist mapping l₁ notes₀
  have hnodupA : (((judgeRunDeferred mapping l₁ notes₀).1).map LiveNote.id).Nodup :=
    hnodup.sublist (hsubA.map LiveNote.id)
  have hnodupB : (((judgeTickDeferred mapping t.settings t.absTime t.keys
      (judgeRunDeferred mapping l₁ notes₀).1).1).map LiveNote.id).Nodup :=
    hnodupA.sublist ((tickDeferred_sublist mapping t.settings t.absTime t.keys
      (judgeRunDeferred mapping l₁ notes₀).1).map LiveNote.id)
  have hBzero : ncount n₀.id (judgeTickDeferred mapping t.settings t.absTime t.keys
      (judgeRunDeferred mapping l₁ notes₀).1).1 = 0 := by
    rw [ncount, List.countP_eq_zero]
    intro m hm
    simp only [beq_iff_eq]
    intro hid
    have hm' : m ∈ (judgeTickDeferred mapping (some s) t.absTime t.keys
        (judgeRunDeferred mapping l₁ notes₀).1).1 := by
      rw [← hset]
      exact hm
    obtain ⟨hmA, hto⟩ := tickDeferred_mem_active mapping s t.absTime t.keys
      (judgeRunDeferred mapping l₁ notes₀).1 m hm'
    have hmem₀ : m ∈ notes₀ := hsubA.subset hmA
    have hmn : m = n₀ := List.inj_on_of_nodup_map hnodup hmem₀ hmem hid
    rw [hmn] at hto
    exact hto hrel
  have hA := runDeferred_count mapping n₀.id l₁ notes₀ hnodup honeA
  have hB := tickDeferred_count mapping t.settings t.absTime t.keys
    (judgeRunDeferred mapping l₁ notes₀).1 n₀.id hnodupA honeT
  have hC := runDeferred_count mapping n₀.id l₂ (judgeTickDeferred mapping t.settings
    t.absTime t.keys (judgeRunDeferred mapping l₁ notes₀).1).1 hnodupB honeB
  have honeN : ncount n₀.id notes₀ = 1 := ncount_eq_one hnodup hmem
  rw [runDeferred_append]
  simp only [judgeRunDeferred]
  rw [vcount_append, vcount_append]
  omega

theorem note_exactly_one_verdict_single_press_witness :
    (([(⟨0, 1, (0, 0)⟩ : LiveNote)].map LiveNote.id).Nodup)
    ∧ ((⟨0, 1, (0, 0)⟩ : LiveNote) ∈ [(⟨0, 1, (0, 0)⟩ : LiveNote)])
    ∧ (∀ t ∈ [(⟨some ⟨1, 0, 0, 1⟩, 2, []⟩ : JudgeTick)],
        (t.keys.filterMap (resolveKey [])).length ≤ 1)
    ∧ (∃ t ∈ [(⟨some ⟨1, 0, 0, 1⟩, 2, []⟩ : JudgeTick)], ∃ s : PlaySettings,
        t.settings = some s
        ∧ (⟨0, 1, (0, 0)⟩ : LiveNote).time + NEAR_WINDOW
            < t.absTime - s.base_time + s.offset)
    ∧ vcount 0 (judgeRunDeferred [] [⟨some ⟨1, 0, 0, 1⟩, 2, []⟩] [⟨0, 1, (0, 0)⟩]).2 = 1
    ∧ ncount 0 (judgeRunDeferred [] [⟨some ⟨1, 0, 0, 1⟩, 2, []⟩] [⟨0, 1, (0, 0)⟩]).1
        = 0 := by
  have hone : ∀ t ∈ [(⟨some ⟨1, 0, 0, 1⟩, 2, []⟩ : JudgeTick)],
      (t.keys.filterMap (resolveKey [])).length ≤ 1 := by
    intro t ht
    rw [List.mem_singleton] at ht
    subst ht
    simp
  have hpast : ∃ t ∈ [(⟨some ⟨1, 0, 0, 1⟩, 2, []⟩ : JudgeTick)], ∃ s : PlaySettings,
      t.settings = some s
      ∧ (⟨0, 1, (0, 0)⟩ : LiveNote).time + NEAR_WINDOW
          < t.absTime - s.base_time + s.offset := by
    refine ⟨⟨some ⟨1, 0, 0, 1⟩, 2, []⟩, List.mem_cons_self _ _, ⟨1, 0, 0, 1⟩, rfl, ?_⟩
    norm_num [NEAR_WINDOW]
  have h := note_exactly_one_verdict_single_press [] [⟨some ⟨1, 0, 0, 1⟩, 2, []⟩]
    [⟨0, 1, (0, 0)⟩] ⟨0, 1, (0, 0)⟩ (by simp) (List.mem_cons_self _ _) hone hpast
  exact ⟨by simp, List.mem_cons_self _ _, hone, hpast, h.1, h.2⟩

end Iris
